import Mathlib

/-!
Verification development for the `prometheus-labels-db` time-partitioned
label store.  The Go source under `internal/database` (db.go, model.go) and
`internal/model` (metric.go) is shallowly embedded below: timestamps are
Unix seconds as `Int`, the SQLite tables of one `(partition, namespace)`
pair become one entry of a pure association-list store, and Go panics are
modelled as `Option.none`.  All definitions are executable.
-/

deriving instance DecidableEq for Except

namespace LabelsDB

/-- `PartitionInterval` from db.go: `3 * 4 * 7 * 24 * time.Hour`, in seconds
(84 days). -/
def PartitionInterval : Int := 3 * 4 * 7 * 24 * 3600

/-- `IdleTimeout` from db.go: `1 * time.Hour`, in seconds. -/
def IdleTimeout : Int := 3600

/-- Seconds from Go's zero time (Jan 1, year 1 UTC, the reference point of
`time.Time.Truncate`) to the Unix epoch; Go's internal `unixToInternal`
constant.  `t.Truncate(d)` rounds the absolute (zero-time based) seconds
down to a multiple of `d`, so the partition grid in Unix seconds is offset
by this constant. -/
def goZeroToUnix : Int := 62135596800

/-- `timeRange` from db.go. -/
structure timeRange where
  From : Int
  To : Int
deriving DecidableEq, Repr

/-- `getPartition` from db.go: `from := t.Truncate(PartitionInterval)`,
`to := from.Add(PartitionInterval).Add(-1 * time.Second)`.  Truncation of a
UTC instant to a multiple of 84 days since Go's zero time, expressed on
Unix seconds. -/
def getPartition (t : Int) : timeRange :=
  let fromT := t - (t + goZeroToUnix) % PartitionInterval
  { From := fromT, To := fromT + PartitionInterval - 1 }

/-- The partition start used to key partition tables (determines the
`YYYYMMDD_YYYYMMDD` suffix of `getTableSuffix`). -/
def partitionStart (t : Int) : Int := (getPartition t).From

/-- The loop of `getLifetimeRanges` from db.go with an explicit iteration
budget (each iteration advances `t` by `PartitionInterval`, so any `n`
with `toT - t ≤ n · PartitionInterval` covers every iteration; the budget
exists only to make the recursion structural and never cuts the loop
short, see `lifetimeLoopFuel_congr`). -/
def lifetimeLoopFuel : Nat → Int → Int → List timeRange
  | 0, _, _ => []
  | n + 1, t, toT =>
    if t < toT then getPartition t :: lifetimeLoopFuel n (t + PartitionInterval) toT else []

/-- The loop of `getLifetimeRanges` from db.go:
`for t := from; t.Before(to); t = t.Add(PartitionInterval)` collecting
`getPartition(t)`; `lifetimeLoop_unfold` recovers the literal loop
equation. -/
def lifetimeLoop (t toT : Int) : List timeRange :=
  lifetimeLoopFuel ((toT - t) / PartitionInterval + 1).toNat t toT

/-- `partitions[0].From = from` from db.go (first clip). -/
def setFirstFrom (f : Int) : List timeRange → List timeRange
  | [] => []
  | tr :: rest => { tr with From := f } :: rest

/-- `partitions[len(partitions)-1].To = to` from db.go (last clip). -/
def setLastTo (v : Int) : List timeRange → List timeRange
  | [] => []
  | [tr] => [{ tr with To := v }]
  | tr :: rest => tr :: setLastTo v rest

/-- `getLifetimeRanges` from db.go.  When the loop produces no partition
(`from >= to` after `t.Before(to)`), the writes `partitions[0].From = from`
and `partitions[len(partitions)-1].To = to` index an empty slice and the Go
program panics; the panic is modelled as `none`. -/
def getLifetimeRanges (fromT toT : Int) : Option (List timeRange) :=
  match lifetimeLoop fromT toT with
  | [] => none
  | tr :: rest => some (setFirstFrom fromT (setLastTo toT (tr :: rest)))

/-- A dimension name/value pair (`model.Dimension`). -/
structure Dimension where
  name : String
  value : String
deriving DecidableEq, Repr

/-- Insertion of a pair into a name-sorted list; `insertionSortByName` mirrors
`sort.Slice(ds, func(i, j int) bool { return ds[i].Name < ds[j].Name })` from
internal/model metric.go.  The Go sort is unstable, so for duplicate names the
source order is unspecified; this model fixes the stable order. -/
def insertByName (d : Dimension) : List Dimension → List Dimension
  | [] => [d]
  | e :: rest => if d.name.data < e.name.data then d :: e :: rest else e :: insertByName d rest

/-- Sort dimensions lexicographically by name (see `insertByName`). -/
def sortByName : List Dimension → List Dimension
  | [] => []
  | d :: rest => insertByName d (sortByName rest)

/-- The characters of one `"name": "value"` member emitted by
`Dimensions.MarshalJSON` in internal/model metric.go. -/
def memberChars (d : Dimension) : List Char :=
  '\"' :: d.name.data ++ '\"' :: ':' :: ' ' :: '\"' :: d.value.data ++ ['\"']

/-- `strings.Join(s, ", ")` over the emitted members. -/
def joinMembers : List Dimension → List Char
  | [] => []
  | [d] => memberChars d
  | d :: e :: rest => memberChars d ++ ',' :: ' ' :: joinMembers (e :: rest)

/-- The members `Dimensions.MarshalJSON` emits: the dimensions sorted by
name with the reserved `__name__` key skipped. -/
def canonDims (ds : List Dimension) : List Dimension :=
  (sortByName ds).filter (fun d => d.name ≠ "__name__")

/-- `Dimensions.MarshalJSON` from internal/model metric.go: sort by name,
skip the reserved `__name__` key, emit `"name": "value"` pairs joined by
`", "` inside braces.  No JSON escaping is performed by the source. -/
def marshalDims (ds : List Dimension) : List Char :=
  Char.ofNat 123 :: joinMembers (canonDims ds) ++ [Char.ofNat 125]

/-- Reads characters up to the next unescaped-quote terminator: the model of
how Go's `encoding/json` scans the string literals produced by
`Dimensions.MarshalJSON`.  Restricted to escape-free content (no `\"`, no
backslash, no control characters) this agrees with Go's parser; outside that
subset the emitted bytes are not the JSON encoding of the original values in
Go either. -/
def scanStringBody : List Char → Option (List Char × List Char)
  | [] => none
  | c :: rest =>
    if c = '\"' then some ([], rest)
    else match scanStringBody rest with
      | none => none
      | some (body, rem) => some (c :: body, rem)

/-- Parse one `"name": "value"` member of the emitted object grammar. -/
def parseMember (cs : List Char) : Option ((String × String) × List Char) :=
  match cs with
  | [] => none
  | c :: rest =>
    if c = '\"' then
      match scanStringBody rest with
      | none => none
      | some (nameBody, rem) =>
        match rem with
        | c1 :: c2 :: c3 :: rest2 =>
          if c1 = ':' ∧ c2 = ' ' ∧ c3 = '\"' then
            match scanStringBody rest2 with
            | none => none
            | some (valBody, rem2) => some ((⟨nameBody⟩, ⟨valBody⟩), rem2)
          else none
        | _ => none
    else none

/-- Parse the members of the emitted object grammar after the opening brace;
`fuel` bounds the number of members. -/
def parseMembers (fuel : Nat) (cs : List Char) : Option (List (String × String) × List Char) :=
  match fuel with
  | 0 => none
  | fuel + 1 =>
    match parseMember cs with
    | none => none
    | some (p, rem) =>
      match rem with
      | [] => none
      | c :: rest =>
        if c = Char.ofNat 125 then some ([p], rest)
        else
          match rest with
          | [] => none
          | c2 :: rest2 =>
            if c = ',' ∧ c2 = ' ' then
              match parseMembers fuel rest2 with
              | none => none
              | some (ps, rem2) => some (p :: ps, rem2)
            else none

/-- Parse a whole emitted JSON object into its member list (requiring, as
Go's `json.Unmarshal` does, that nothing follows the closing brace). -/
def parseObject (cs : List Char) : Option (List (String × String)) :=
  match cs with
  | c :: rest =>
    if c = Char.ofNat 123 then
      match rest with
      | [] => none
      | e :: rest2 =>
        if e = Char.ofNat 125 then (if rest2 = [] then some [] else none)
        else match parseMembers cs.length (e :: rest2) with
          | some (ps, []) => some ps
          | _ => none
    else none
  | [] => none

/-- `map[string]interface{}` semantics of Go's `json.Unmarshal`: later
duplicate keys overwrite earlier ones. -/
def collapseLastWins (ps : List (String × String)) : List (String × String) :=
  ps.foldl (fun acc p =>
    if acc.any (fun q => q.1 = p.1)
    then acc.map (fun q => if q.1 = p.1 then (q.1, p.2) else q)
    else acc ++ [p]) []

/-- `Dimensions.UnmarshalJSON` from internal/model metric.go: unmarshal the
bytes into a string map (later duplicates win), then append every pair whose
key is not `__name__`.  Go iterates the map in unspecified order; the model
keeps first-occurrence order.  A parse failure (the source bytes are not a
valid flat JSON object of strings) is the `none` case. -/
def unmarshalDims (cs : List Char) : Option (List Dimension) :=
  match parseObject cs with
  | none => none
  | some ps => some (((collapseLastWins ps).filter (fun p => p.1 ≠ "__name__")).map
      (fun p => { name := p.1, value := p.2 }))

/-- `model.Metric` from internal/model metric.go, restricted to the columns
the store persists and the claims use (`MetricID` is partition-local and
never crosses the interface; `UpdatedAt` is wall-clock bookkeeping no claim
mentions). -/
structure Metric where
  Namespace : String
  MetricName : String
  Region : String
  Dimensions : List Dimension
  FromTS : Int
  ToTS : Int
deriving DecidableEq, Repr

/-- `strings.ReplaceAll(namespace, "/", "_")` from `getLifetimeTableSuffix`
(the pattern is the single character `/`, so the replacement is a
character map). -/
def nsTableKey (ns : String) : String :=
  String.mk (ns.data.map (fun c => if c = '/' then '_' else c))

/-- The pure store: one entry per `(partition start, sanitized namespace)`
pair, standing for the `metrics<suffix>` / `metrics_lifetime<suffix>_<ns>`
table pair of db.go (both are created together by `init` and updated with
identical ranges by `recordMetricToPartition`, so they collapse to one row
list; the per-namespace lifetime table is what keys the pair, mirroring the
join in `QueryMetrics`). -/
abbrev Store : Type := List ((Int × String) × List Metric)

/-- Look a `(partition, namespace)` table up; `none` is SQLite's
`no such table` condition. -/
def lookupTable (st : Store) (k : Int × String) : Option (List Metric) :=
  (st.find? (fun e => e.1 = k)).map Prod.snd

/-- Replace the first entry whose key satisfies `p` (SQL `UPDATE ... WHERE`
hits the unique match). -/
def updateFirst (p : α → Bool) (f : α → α) : List α → List α
  | [] => []
  | x :: xs => if p x then f x :: xs else x :: updateFirst p f xs

/-- Write a table's rows back into the store. -/
def setTable (st : Store) (k : Int × String) (rows : List Metric) : Store :=
  if (lookupTable st k).isSome
  then updateFirst (fun e => e.1 = k) (fun e => (e.1, rows)) st
  else st ++ [(k, rows)]

/-- `LabelDB.init` from db.go: idempotent `CREATE TABLE IF NOT EXISTS` for
the `(partition, namespace)` table pair.  The LRU memo only skips redundant
DDL and does not change the resulting schema, so it has no pure effect. -/
def init (st : Store) (t : Int) (ns : String) : Store :=
  if (lookupTable st (partitionStart t, nsTableKey ns)).isSome then st
  else st ++ [((partitionStart t, nsTableKey ns), [])]

/-- The `WHERE namespace = ? AND metric_name = ? AND region = ? AND
dimensions = ?` lookup of `recordMetricToPartition`; the dimensions column
holds the `MarshalJSON` bytes, compared byte-exactly. -/
def sameIdentity (r m : Metric) : Bool :=
  r.Namespace = m.Namespace ∧ r.MetricName = m.MetricName ∧
    r.Region = m.Region ∧ marshalDims r.Dimensions = marshalDims m.Dimensions

/-- The table a clipped sub-range is written to: the partition of
`tr.From` paired with the sanitized namespace (the suffix pair computed by
`getTableSuffix`/`getLifetimeTableSuffix` in `recordMetricToPartition`). -/
def targetKey (m : Metric) (tr : timeRange) : Int × String :=
  (partitionStart tr.From, nsTableKey m.Namespace)

/-- The row-level upsert of `recordMetricToPartition` from db.go: `INSERT`
of `[tr.From, tr.To]` when the identity's row is absent, `UPDATE` to
`[min(tr.From, old_from), max(tr.To, old_to)]` when present. -/
def upsertRows (rows : List Metric) (m : Metric) (tr : timeRange) : List Metric :=
  if rows.any (fun r => sameIdentity r m)
  then updateFirst (fun r => sameIdentity r m)
    (fun r => { r with FromTS := min tr.From r.FromTS, ToTS := max tr.To r.ToTS }) rows
  else rows ++ [{ m with FromTS := tr.From, ToTS := tr.To }]

/-- `recordMetricToPartition` from db.go: upsert of the identity row into
the partition's table (the `metrics_lifetime` row receives the same values
in the same transaction, so both tables carry one shared row here). -/
def recordMetricToPartition (st : Store) (m : Metric) (tr : timeRange) : Store :=
  setTable st (targetKey m tr) (upsertRows ((lookupTable st (targetKey m tr)).getD []) m tr)

/-- One loop iteration of `RecordMetric` from db.go: `ldb.init` then
`ldb.recordMetricToPartition` inside one transaction on the partition's
handle. -/
def recordOnce (st : Store) (m : Metric) (tr : timeRange) : Store :=
  recordMetricToPartition (init st tr.From m.Namespace) m tr

/-- `RecordMetric` from db.go: validate `ToTS.Before(FromTS)`, split the
lifetime with `getLifetimeRanges` (which panics when `FromTS = ToTS`,
modelled as `none`), and upsert each clipped sub-range in time order.
Handle-open and transaction errors of the embedded store are outside the
pure model. -/
def RecordMetric (st : Store) (m : Metric) : Option (Except String Store) :=
  if m.ToTS < m.FromTS then
    some (Except.error "from timestamp is greater than to timestamp")
  else
    match getLifetimeRanges m.FromTS m.ToTS with
    | none => none
    | some trs => some (Except.ok (trs.foldl (fun s tr => recordOnce s m tr) st))

/-- `labels.MatchType` from the Prometheus labels package. -/
inductive MatchType where
  | MatchEqual
  | MatchNotEqual
  | MatchRegexp
  | MatchNotRegexp
deriving DecidableEq, Repr

/-- `labels.Matcher` (field `Type` is rendered `mtype`). -/
structure Matcher where
  mtype : MatchType
  name : String
  value : String
deriving DecidableEq, Repr

/-- The column a matcher name resolves to in `buildLabelConditions`. -/
inductive Col where
  | nspCol
  | metricNameCol
  | regionCol
  | dimCol (n : String)
deriving DecidableEq, Repr

/-- The `switch ln` name mapping of `buildLabelConditions` from model.go:
`Namespace`, `__name__`/`MetricName`, `Region`, and the JSON-extract
default `IFNULL(m.dimensions->>'$.<name>', "")`. -/
def colOf (n : String) : Col :=
  if n = "Namespace" then Col.nspCol
  else if n = "__name__" then Col.metricNameCol
  else if n = "MetricName" then Col.metricNameCol
  else if n = "Region" then Col.regionCol
  else Col.dimCol n

/-- One compiled predicate fragment together with its bound argument. -/
structure Cond where
  col : Col
  op : MatchType
  arg : String
deriving DecidableEq, Repr

/-- `buildLabelConditions` from model.go: one condition per matcher, the
`namespace` variable overwritten by every matcher named `Namespace`
(whatever its operator), and the `namespace == ""` check at the end. -/
def buildLabelConditions (lm : List Matcher) : Except String (List Cond × String) :=
  let r := lm.foldl
    (fun (acc : List Cond × String) m =>
      let ns := if m.name = "Namespace" then m.value else acc.2
      (acc.1 ++ [{ col := colOf m.name, op := m.mtype, arg := m.value }], ns))
    ([], "")
  if r.2 = "" then Except.error "namespace label matcher is required"
  else Except.ok r

/-- `IFNULL(m.dimensions->>'$.<n>', "")` over the stored dimensions JSON:
the column text lists the sorted, `__name__`-filtered members, and the JSON
path returns the first member with the key (or NULL, turned into `""`). -/
def dimValue (ds : List Dimension) (n : String) : String :=
  match ((sortByName ds).filter (fun d => d.name ≠ "__name__")).find? (fun d => d.name = n) with
  | some d => d.value
  | none => ""

/-- Column extraction for the compiled conditions. -/
def colValue (r : Metric) : Col → String
  | Col.nspCol => r.Namespace
  | Col.metricNameCol => r.MetricName
  | Col.regionCol => r.Region
  | Col.dimCol n => dimValue r.Dimensions n

/-- Truth of one compiled condition on a stored row; `rx pattern s` is the
PCRE `REGEXP` operator registered by the regexp extension, kept abstract. -/
def condHolds (rx : String → String → Bool) (r : Metric) (c : Cond) : Bool :=
  match c.op with
  | MatchType.MatchEqual => colValue r c.col = c.arg
  | MatchType.MatchNotEqual => colValue r c.col ≠ c.arg
  | MatchType.MatchRegexp => rx c.arg (colValue r c.col)
  | MatchType.MatchNotRegexp => !(rx c.arg (colValue r c.col))

/-- `buildTimeConditions` from model.go:
`ml.from_timestamp <= tr.To.Unix() AND ml.to_timestamp >= tr.From.Unix()`. -/
def timeCondHolds (tr : timeRange) (r : Metric) : Bool :=
  decide (r.FromTS ≤ tr.To) && decide (tr.From ≤ r.ToTS)

/-- `Metric.UniqueKey` from internal/model metric.go: namespace, metric
name and region concatenated with the name/value pairs sorted
lexicographically by name. -/
def UniqueKey (m : Metric) : String :=
  (sortByName m.Dimensions).foldl (fun s d => s ++ d.name ++ d.value)
    (m.Namespace ++ m.MetricName ++ m.Region)

/-- `strings.Contains` (on the underlying character lists). -/
def listContainsSub [BEq α] (sub : List α) : List α → Bool
  | [] => sub.isEmpty
  | a :: rest => sub.isPrefixOf (a :: rest) || listContainsSub sub rest

/-- `strings.Contains(s, sub)`. -/
def strContainsSub (sub s : String) : Bool := listContainsSub sub.data s.data

/-- The result map `map[string]*model.Metric` of `QueryMetrics`
(model.go), as an association list with unique keys. -/
abbrev RMap : Type := List (String × Metric)

/-- Map lookup. -/
def lookupRM (res : RMap) (k : String) : Option Metric :=
  (res.find? (fun e => e.1 = k)).map Prod.snd

/-- The row-merge step of `QueryMetrics` (model.go): compute the unique
key; union the lifetime into an existing entry, else insert the row. -/
def processRow (res : RMap) (m : Metric) : RMap :=
  let k := UniqueKey m
  if res.any (fun e => e.1 = k)
  then updateFirst (fun e => e.1 = k)
    (fun e => (e.1, { e.2 with FromTS := min m.FromTS e.2.FromTS,
                               ToTS := max m.ToTS e.2.ToTS })) res
  else res ++ [(k, m)]

/-- The `rows.Next()` loop of one partition. -/
def processRows (res : RMap) (rows : List Metric) : RMap :=
  rows.foldl processRow res

/-- The `rows.Next()` scan including the `json.Unmarshal(dim,
&m.Dimensions)` step, which re-reads each row's dimensions from the stored
`MarshalJSON` bytes and aborts the partition on a parse error (rows before
the failure have already been merged by the caller). -/
def scanRows : List Metric → List Metric × Option String
  | [] => ([], none)
  | r :: rest =>
    match unmarshalDims (marshalDims r.Dimensions) with
    | none => ([], some "invalid character in dimensions json")
    | some ds =>
      let p := scanRows rest
      ({ r with Dimensions := ds } :: p.1, p.2)

/-- One partition's outcome as `QueryMetrics` observes it: the rows
successfully scanned, then either clean completion (`none`) or the error
that aborted the partition. -/
abbrev PartitionOutcome : Type := List Metric × Option String

/-- The per-partition body of `QueryMetrics` (model.go): select from the
`(partition, namespace)` table pair the rows whose lifetime interval
overlaps the clipped sub-range and that satisfy every compiled condition,
apply the SQL `LIMIT ?` when `limit > 0`, and scan.  A missing table pair
is SQLite's `no such table: metrics_lifetime<suffix>` error (the suffix is
irrelevant to the handling and elided). -/
def fetchPartition (st : Store) (ns : String) (conds : List Cond)
    (rx : String → String → Bool) (limit : Int) (tr : timeRange) : PartitionOutcome :=
  match lookupTable st (partitionStart tr.From, nsTableKey ns) with
  | none => ([], some "no such table: metrics_lifetime")
  | some rows =>
    let sel := rows.filter (fun r => timeCondHolds tr r && conds.all (condHolds rx r))
    scanRows (if limit > 0 then sel.take limit.toNat else sel)

/-- The partition loop of `QueryMetrics` (model.go): merge each outcome's
rows; on an error containing `"no such table: "` continue with the next
partition, on any other error return the map built so far together with
the error; after a clean partition stop early once `limit != 0 &&
len(result) >= limit`. -/
def queryLoop (limit : Int) (result : RMap) : List PartitionOutcome → RMap × Option String
  | [] => (result, none)
  | o :: rest =>
    let result2 := processRows result o.1
    match o.2 with
    | some e =>
      if strContainsSub "no such table: " e then queryLoop limit result2 rest
      else (result2, some e)
    | none =>
      if limit ≠ 0 ∧ limit ≤ (result2.length : Int) then (result2, none)
      else queryLoop limit result2 rest

/-- `QueryMetrics` from model.go: compile the matchers (propagating the
missing-namespace error with the caller's seed map), split `[from, to]`
with `getLifetimeRanges` (panicking, `none`, when `from = to`), and run the
partition loop over the per-partition outcomes. -/
def QueryMetrics (st : Store) (rx : String → String → Bool) (fromT toT : Int)
    (lm : List Matcher) (limit : Int) (result : RMap) : Option (RMap × Option String) :=
  match buildLabelConditions lm with
  | Except.error e => some (result, some e)
  | Except.ok (conds, ns) =>
    match getLifetimeRanges fromT toT with
    | none => none
    | some trs => some (queryLoop limit result (trs.map (fetchPartition st ns conds rx limit)))

/-- One open entry of the `ldb.db` handle cache: its key — the database
path `fmt.Sprintf("labels%s.db", suffix)` that `getDB` stores it under —
and whether `db.Close()` would succeed (the I/O outcome kept abstract as a
flag). -/
structure Handle where
  dbPath : String
  closeOk : Bool
deriving DecidableEq, Repr

/-- The Unix value of Go's zero `time.Time` (January 1, year 1 UTC): what
a read of a `map[string]time.Time` returns for a missing key. -/
def goZeroTime : Int := -goZeroToUnix

/-- The `ldb.lastUsed` map: keys to Unix timestamps. -/
abbrev LastUsed : Type := List (String × Int)

/-- `ldb.lastUsed[k]` with Go's zero-value semantics for a missing key. -/
def lookupLastUsed (lu : LastUsed) (k : String) : Int :=
  ((lu.find? (fun e => e.1 = k)).map Prod.snd).getD goZeroTime

/-- `fmt.Sprintf(DbPathPattern, suffix)` with
`DbPathPattern = "labels%s.db"`: the key of the `ldb.db` cache. -/
def dbPathOf (suffix : String) : String := "labels" ++ suffix ++ ".db"

/-- `delete(m, k)` on an association-list map. -/
def deleteKey (lu : LastUsed) (k : String) : LastUsed :=
  lu.filter (fun e => e.1 ≠ k)

/-- The `ldb.lastUsed[suffix] = time.Now()` write of `getDB` from db.go —
the only writer of the map, keyed by the bare table suffix, while the
`ldb.db` cache at the same call site is keyed by `dbPathOf suffix`. -/
def touchLastUsed (lu : LastUsed) (suffix : String) (now : Int) : LastUsed :=
  if (lu.find? (fun e => e.1 = suffix)).isSome
  then updateFirst (fun e => e.1 = suffix) (fun e => (e.1, now)) lu
  else lu ++ [(suffix, now)]

/-- `CleanupUnusedDB` from db.go: the loop ranges over the `ldb.db` cache,
so its `suffix` variable holds the database path, and it reads and deletes
`ldb.lastUsed` with that path as the key.  A handle is kept while
`lastUsed.Add(IdleTimeout).After(now)`; otherwise it is closed, and only
on a successful close deleted from the cache together with the
(path-keyed) `lastUsed` entry — a failed close is logged and the
`continue` skips both deletes. -/
def CleanupUnusedDB (now : Int) : List Handle → LastUsed → List Handle × LastUsed
  | [], lu => ([], lu)
  | h :: rest, lu =>
    if now < lookupLastUsed lu h.dbPath + IdleTimeout then
      let p := CleanupUnusedDB now rest lu
      (h :: p.1, p.2)
    else if h.closeOk then
      CleanupUnusedDB now rest (deleteKey lu h.dbPath)
    else
      let p := CleanupUnusedDB now rest lu
      (h :: p.1, p.2)

/-- A row as the partition scan of `QueryMetrics` returns it: the
`dimensions` column round-trips through `MarshalJSON`/`UnmarshalJSON`, so
the scanned row carries the sorted, `__name__`-filtered dimensions. -/
def canonRow (r : Metric) : Metric := { r with Dimensions := canonDims r.Dimensions }

/-- The rows one clipped sub-range contributes to the result map of
`QueryMetrics` when every row scans cleanly: the target table's rows that
overlap the sub-range and satisfy every compiled condition, as the scan
returns them (an absent table contributes nothing). -/
def partitionRows (st : Store) (ns : String) (conds : List Cond)
    (rx : String → String → Bool) (tr : timeRange) : List Metric :=
  match lookupTable st (partitionStart tr.From, nsTableKey ns) with
  | none => []
  | some rows =>
    (rows.filter (fun r => timeCondHolds tr r && conds.all (condHolds rx r))).map canonRow

/-- The effect of merging one scanned row on the entry at key `k` of the
result map (the body of the `rows.Next()` loop, seen through `lookupRM`). -/
def mergeRow (k : String) (acc : Option Metric) (r : Metric) : Option Metric :=
  if UniqueKey r = k then
    match acc with
    | none => some r
    | some mm => some { mm with FromTS := min r.FromTS mm.FromTS,
                                ToTS := max r.ToTS mm.ToTS }
  else acc

/-- The number of iterations the `getLifetimeRanges` loop performs for
`a < b`: one per step of `PartitionInterval` starting at `a`, i.e.
`⌈(b − a) / PartitionInterval⌉`. -/
def stepCount (a b : Int) : Nat :=
  ((b - a + PartitionInterval - 1) / PartitionInterval).toNat

/-- The value the `namespace` loop variable holds after the matcher loop:
the value of the last matcher named `Namespace` (of any operator), or `""`
if there is none. -/
def lastNamespaceValue (lm : List Matcher) : String :=
  lm.foldl (fun a m => if m.name = "Namespace" then m.value else a) ""

/-- The condition list the matcher loop builds: one fragment per matcher. -/
def condsOf (lm : List Matcher) : List Cond :=
  lm.map (fun m => { col := colOf m.name, op := m.mtype, arg := m.value })

/-- The `(from_timestamp, to_timestamp)` of the identity's row in a
table's rows, if any. -/
def rowsRange (o : Option (List Metric)) (m : Metric) : Option (Int × Int) :=
  match o with
  | none => none
  | some rows => (rows.find? (fun r => sameIdentity r m)).map (fun r => (r.FromTS, r.ToTS))

/-- The `(from_timestamp, to_timestamp)` stored for identity `m` in table
`k`, if the table and the row exist. -/
def findIdentityRange (st : Store) (k : Int × String) (m : Metric) : Option (Int × Int) :=
  rowsRange (lookupTable st k) m

/-- One step of the interval union: how a recorded clipped sub-range
extends the stored row. -/
def hullStep (acc : Option (Int × Int)) (tr : timeRange) : Option (Int × Int) :=
  match acc with
  | none => some (tr.From, tr.To)
  | some ft => some (min tr.From ft.1, max tr.To ft.2)

/-- The interval union (hull) of a list of clipped sub-ranges, in the
claim's sense: the row after recording them all, `none` for the empty
list. -/
def rangeUnion (trs : List timeRange) : Option (Int × Int) :=
  trs.foldl hullStep none

/-- A sequence of `RecordMetric` calls, all of which must succeed. -/
def runRecords (st : Store) : List Metric → Option Store
  | [] => some st
  | m :: rest =>
    match RecordMetric st m with
    | some (Except.ok st2) => runRecords st2 rest
    | _ => none

/-- The metric that records identity `base` with lifetime `l`. -/
def withLifetime (base : Metric) (l : Int × Int) : Metric :=
  { base with FromTS := l.1, ToTS := l.2 }

/-- `RecordMetric` calls for one identity with the given lifetimes. -/
def callsOf (base : Metric) (ls : List (Int × Int)) : List Metric :=
  ls.map (withLifetime base)

/-- All clipped sub-ranges of a call sequence that target table `k`. -/
def clipsTargeting (k : Int × String) : List Metric → List timeRange
  | [] => []
  | m :: rest =>
    ((getLifetimeRanges m.FromTS m.ToTS).getD []).filter (fun tr => targetKey m tr = k)
      ++ clipsTargeting k rest

/-- One write's effect on the rows of its target table. -/
def tableEvolve (m : Metric) (o : Option (List Metric)) (tr : timeRange) : Option (List Metric) :=
  some (upsertRows (o.getD []) m tr)

/-- Strings free of the characters on which the escape-free emitter of
`MarshalJSON` and Go's `encoding/json` parser disagree: double quote,
backslash, and control characters. -/
def goodStr (s : String) : Prop := ∀ c ∈ s.data, c ≠ '\"' ∧ c ≠ '\\' ∧ ' ' ≤ c

/-- Wellformedness of one stored row of the `(p, namespace)` table pair:
its dimensions survive the marshal/unmarshal round trip of the scan (good
characters, distinct names), and the row was written by the record path,
so its `from_timestamp` lies inside partition `p` and does not exceed its
`to_timestamp`. -/
def rowWF (p : Int) (r : Metric) : Prop :=
  (∀ d ∈ r.Dimensions, goodStr d.name ∧ goodStr d.value)
  ∧ (r.Dimensions.map Dimension.name).Nodup
  ∧ partitionStart r.FromTS = p
  ∧ r.FromTS ≤ r.ToTS

/-- Wellformedness of the whole store: every row of every table pair. -/
def storeWF (st : Store) : Prop :=
  ∀ e ∈ st, ∀ r ∈ e.2, rowWF e.1.1 r

/-! ### Generic lemmas -/

theorem lifetimeLoopFuel_congr :
    ∀ {n : Nat} {t toT : Int} (m : Nat),
      toT - t ≤ (n : Int) * PartitionInterval → toT - t ≤ (m : Int) * PartitionInterval →
      lifetimeLoopFuel n t toT = lifetimeLoopFuel m t toT := by
  intro n
  induction n with
  | zero =>
    intro t toT m hn _
    have hle : toT ≤ t := by
      simp only [PartitionInterval] at hn
      omega
    cases m with
    | zero => rfl
    | succ m =>
      simp only [lifetimeLoopFuel]
      rw [if_neg (by omega)]
  | succ n ih =>
    intro t toT m hn hm
    cases m with
    | zero =>
      have hle : toT ≤ t := by
        simp only [PartitionInterval] at hm
        omega
      simp only [lifetimeLoopFuel]
      rw [if_neg (by omega)]
    | succ m =>
      simp only [lifetimeLoopFuel]
      by_cases hlt : t < toT
      · rw [if_pos hlt, if_pos hlt]
        have h1 : toT - (t + PartitionInterval) ≤ (n : Int) * PartitionInterval := by
          simp only [PartitionInterval] at hn ⊢
          push_cast at hn ⊢
          omega
        have h2 : toT - (t + PartitionInterval) ≤ (m : Int) * PartitionInterval := by
          simp only [PartitionInterval] at hm ⊢
          push_cast at hm ⊢
          omega
        rw [ih m h1 h2]
      · rw [if_neg hlt, if_neg hlt]

theorem lifetimeLoop_fuel_bound (t toT : Int) :
    toT - t ≤ ((((toT - t) / PartitionInterval + 1).toNat : Nat) : Int) * PartitionInterval := by
  simp only [PartitionInterval]
  omega

/-- The loop equation of `getLifetimeRanges` as written in db.go. -/
theorem lifetimeLoop_unfold (t toT : Int) :
    lifetimeLoop t toT
      = if t < toT then getPartition t :: lifetimeLoop (t + PartitionInterval) toT else [] := by
  unfold lifetimeLoop
  by_cases hlt : t < toT
  · have h1 : ((toT - t) / PartitionInterval + 1).toNat
        = (((toT - t) / PartitionInterval).toNat) + 1 := by
      simp only [PartitionInterval]
      omega
    rw [h1]
    simp only [lifetimeLoopFuel]
    rw [if_pos hlt, if_pos hlt]
    rw [lifetimeLoopFuel_congr (((toT - (t + PartitionInterval)) / PartitionInterval + 1).toNat)
      ?_ (lifetimeLoop_fuel_bound (t + PartitionInterval) toT)]
    simp only [PartitionInterval]
    omega
  · rcases hn : ((toT - t) / PartitionInterval + 1).toNat with _ | n
    · simp [lifetimeLoopFuel, hlt]
    · simp only [lifetimeLoopFuel]
      rw [if_neg hlt, if_neg hlt]

theorem updateFirst_find?_self (p : α → Bool) (f : α → α)
    (hf : ∀ x, p x = true → p (f x) = true) :
    ∀ xs : List α, (updateFirst p f xs).find? p = (xs.find? p).map f := by
  intro xs
  induction xs with
  | nil => simp [updateFirst]
  | cons x xs ih =>
    by_cases hx : p x = true
    · simp [updateFirst, hx, List.find?, hf x hx]
    · simp only [Bool.not_eq_true] at hx
      simp [updateFirst, hx, List.find?, ih]

theorem updateFirst_find?_other (p q : α → Bool) (f : α → α)
    (hq : ∀ x, q (f x) = q x) (hpq : ∀ x, p x = true → q x = false) :
    ∀ xs : List α, (updateFirst p f xs).find? q = xs.find? q := by
  intro xs
  induction xs with
  | nil => simp [updateFirst]
  | cons x xs ih =>
    by_cases hx : p x = true
    · simp [updateFirst, hx, List.find?, hq, hpq x hx]
    · simp only [Bool.not_eq_true] at hx
      cases hqx : q x with
      | true => simp [updateFirst, hx, List.find?, hqx]
      | false => simp [updateFirst, hx, List.find?, hqx, ih]

theorem find?_append_none {p : α → Bool} {xs : List α} (h : xs.find? p = none)
    (ys : List α) : (xs ++ ys).find? p = ys.find? p := by
  induction xs with
  | nil => simp
  | cons x xs ih =>
    simp only [List.find?, List.cons_append] at h ⊢
    cases hx : p x with
    | true => simp [hx] at h
    | false =>
      simp only [hx] at h ⊢
      exact ih h

/-! ### C6: namespace extraction in `buildLabelConditions` -/



theorem buildLabelConditions_foldl (lm : List Matcher) :
    ∀ (cs : List Cond) (a : String),
      lm.foldl
        (fun (acc : List Cond × String) m =>
          let ns := if m.name = "Namespace" then m.value else acc.2
          (acc.1 ++ [{ col := colOf m.name, op := m.mtype, arg := m.value }], ns))
        (cs, a)
      = (cs ++ condsOf lm, lm.foldl (fun a m => if m.name = "Namespace" then m.value else a) a) := by
  induction lm with
  | nil => intro cs a; simp [condsOf]
  | cons m lm ih => intro cs a; simp [condsOf, List.foldl_cons, ih]

/-- C6 (counterexample): a matcher list whose only `Namespace` matcher uses
the `Regexp` operator — so it has no `Namespace` equality matcher at all —
still compiles successfully, and its value `"foo"` is captured as the
namespace; the claim requires the *MissingNamespace* failure here. -/
theorem buildLabelConditions_regexp_namespace_accepted :
    buildLabelConditions
        [{ mtype := MatchType.MatchRegexp, name := "Namespace", value := "foo" }]
      = Except.ok ([{ col := Col.nspCol, op := MatchType.MatchRegexp, arg := "foo" }], "foo")
    ∧ ∀ m ∈ [({ mtype := MatchType.MatchRegexp, name := "Namespace", value := "foo" } : Matcher)],
        m.mtype ≠ MatchType.MatchEqual := by
  constructor
  · rfl
  · intro m hm
    simp at hm
    subst hm
    decide

/-- C6 (amended): matcher compilation fails with the missing-namespace
error exactly when the last matcher named `Namespace` has an empty value
(in particular when no matcher is named `Namespace`), regardless of
operators and of how many `Namespace` matchers occur; on success the
compiled output is one condition per matcher together with that last
value as the namespace. -/
theorem buildLabelConditions_spec (lm : List Matcher) :
    buildLabelConditions lm
      = if lastNamespaceValue lm = "" then Except.error "namespace label matcher is required"
        else Except.ok (condsOf lm, lastNamespaceValue lm) := by
  unfold buildLabelConditions
  rw [show (([], "") : List Cond × String) = (([] : List Cond), "") from rfl,
    buildLabelConditions_foldl lm [] ""]
  simp [lastNamespaceValue]

/-! ### C8: idle-handle cleanup -/

/-- C8 (counterexample): `getDB` records the use of suffix `"s"` ten
seconds before the cleanup, yet `CleanupUnusedDB` closes and removes the
handle anyway: the loop's cache key `labelss.db` misses the suffix-keyed
`lastUsed` entry, so the idle check reads Go's zero time and the
"still used" branch cannot fire — and the stale suffix-keyed `lastUsed`
entry survives the (path-keyed) delete.  A handle whose `Close` fails is
kept in the cache, though the claim requires removal. -/
theorem CleanupUnusedDB_closes_fresh_handle :
    touchLastUsed [] "s" 90 = [("s", 90)]
    ∧ dbPathOf "s" = "labelss.db"
    ∧ CleanupUnusedDB 100 [(⟨"labelss.db", true⟩ : Handle)] [("s", 90)] = ([], [("s", 90)])
    ∧ CleanupUnusedDB 100 [(⟨"labelss.db", false⟩ : Handle)] [("s", 90)]
        = ([(⟨"labelss.db", false⟩ : Handle)], [("s", 90)]) := by
  refine ⟨by decide, by decide, by decide, by decide⟩

/-- C8 (amended): `CleanupUnusedDB` ranges over the `ldb.db` cache, whose
keys are database paths, while `getDB` writes `ldb.lastUsed` under the
bare table suffix — so for every handle created through `getDB` the idle
check reads the zero time.  Whenever the clock is past
`goZeroTime + IdleTimeout` (any realistic wall-clock instant) and no
`lastUsed` entry is keyed by a handle's database path, the cleanup closes
every handle regardless of how recently `getDB` touched it, removes
exactly those whose `Close` succeeds (a failed close is logged and the
handle is kept), and leaves the suffix-keyed `lastUsed` entries in place:
the deletes target the path key, which is never present. -/
theorem CleanupUnusedDB_spec (now : Int) (hs : List Handle) (lu : LastUsed)
    (hkeys : ∀ h ∈ hs, lu.find? (fun e => e.1 = h.dbPath) = none)
    (hnow : goZeroTime + IdleTimeout ≤ now) :
    CleanupUnusedDB now hs lu = (hs.filter (fun h => !h.closeOk), lu) := by
  induction hs with
  | nil => rfl
  | cons h rest ih =>
    have hk := hkeys h (List.mem_cons_self h rest)
    have hrest : ∀ x ∈ rest, lu.find? (fun e => e.1 = x.dbPath) = none :=
      fun x hx => hkeys x (List.mem_cons_of_mem _ hx)
    have hlu : lookupLastUsed lu h.dbPath = goZeroTime := by
      simp [lookupLastUsed, hk]
    have hcond : ¬ (now < lookupLastUsed lu h.dbPath + IdleTimeout) := by
      rw [hlu]
      omega
    have hdel : deleteKey lu h.dbPath = lu := by
      apply List.filter_eq_self.mpr
      intro e he
      simp only [ne_eq, decide_eq_true_eq]
      intro heq
      rw [List.find?_eq_none] at hk
      exact hk e he (by simp [heq])
    cases hc : h.closeOk with
    | true => simp [CleanupUnusedDB, hcond, hc, hdel, ih hrest, List.filter]
    | false => simp [CleanupUnusedDB, hcond, hc, List.filter, ih hrest]

/-- C8 (witness): the amended cleanup theorem applied to a cache holding
one handle whose close succeeds and one whose close fails, over a
suffix-keyed `lastUsed` map that was freshly touched. -/
theorem CleanupUnusedDB_spec_witness :
    (∀ h ∈ [(⟨"labelss.db", true⟩ : Handle), ⟨"labelst.db", false⟩],
        ([("s", 90), ("t", 95)] : LastUsed).find? (fun e => e.1 = h.dbPath) = none)
    ∧ goZeroTime + IdleTimeout ≤ 100
    ∧ CleanupUnusedDB 100 [(⟨"labelss.db", true⟩ : Handle), ⟨"labelst.db", false⟩]
        [("s", 90), ("t", 95)]
      = ([(⟨"labelst.db", false⟩ : Handle)], [("s", 90), ("t", 95)]) :=
  ⟨by decide, by decide, by
    rw [CleanupUnusedDB_spec 100 [(⟨"labelss.db", true⟩ : Handle), ⟨"labelst.db", false⟩]
      [("s", 90), ("t", 95)] (by decide) (by decide)]
    decide⟩

/-! ### Query-loop lemmas (C7, C10) -/

theorem lookupRM_processRow (res : RMap) (m : Metric) (k : String) :
    lookupRM (processRow res m) k
      = if UniqueKey m = k then
          match lookupRM res k with
          | some mm => some { mm with FromTS := min m.FromTS mm.FromTS,
                                      ToTS := max m.ToTS mm.ToTS }
          | none => some m
        else lookupRM res k := by
  by_cases hany : res.any (fun e => e.1 = UniqueKey m) = true
  · have hrw : processRow res m
        = updateFirst (fun e => e.1 = UniqueKey m)
            (fun e => (e.1, { e.2 with FromTS := min m.FromTS e.2.FromTS,
                                       ToTS := max m.ToTS e.2.ToTS })) res := by
      simp [processRow, hany]
    rw [hrw]
    by_cases hk : UniqueKey m = k
    · subst hk
      unfold lookupRM
      rw [updateFirst_find?_self (fun e => e.1 = UniqueKey m)
        (fun e => (e.1, { e.2 with FromTS := min m.FromTS e.2.FromTS,
                                   ToTS := max m.ToTS e.2.ToTS }))
        (fun x hx => hx) res]
      rcases hfind : res.find? (fun e => decide (e.1 = UniqueKey m)) with _ | x
      · rw [List.any_eq_true] at hany
        rw [List.find?_eq_none] at hfind
        obtain ⟨x, hx, hpx⟩ := hany
        exact absurd hpx (hfind x hx)
      · rw [hfind]
        simp
    · rw [if_neg hk]
      unfold lookupRM
      rw [updateFirst_find?_other (fun e => e.1 = UniqueKey m) (fun e => e.1 = k)
        (fun e => (e.1, { e.2 with FromTS := min m.FromTS e.2.FromTS,
                                   ToTS := max m.ToTS e.2.ToTS }))
        (fun x => rfl) ?_ res]
      intro x hx
      simp only [decide_eq_true_eq] at hx ⊢
      simp [hx, hk]
  · have hrw : processRow res m = res ++ [(UniqueKey m, m)] := by
      simp only [Bool.not_eq_true] at hany
      simp [processRow, hany]
    rw [hrw]
    have hfind : res.find? (fun e => decide (e.1 = UniqueKey m)) = none := by
      rw [List.find?_eq_none]
      intro x hx hpx
      exact hany (List.any_eq_true.mpr ⟨x, hx, hpx⟩)
    by_cases hk : UniqueKey m = k
    · subst hk
      unfold lookupRM
      rw [List.find?_append, hfind]
      simp [hfind]
    · rw [if_neg hk]
      unfold lookupRM
      rw [List.find?_append]
      have h2 : List.find? (fun e => decide (e.1 = k)) [(UniqueKey m, m)] = none := by
        simp [List.find?, hk]
      rw [h2]
      cases res.find? (fun e => decide (e.1 = k)) <;> simp

theorem processRow_preserves_keys (res : RMap) (m : Metric) (k : String)
    (h : (lookupRM res k).isSome = true) :
    (lookupRM (processRow res m) k).isSome = true := by
  rw [lookupRM_processRow]
  by_cases hk : UniqueKey m = k
  · rcases hres : lookupRM res k with _ | mm
    · rw [hres] at h; simp at h
    · simp [hk, hres]
  · simpa [hk] using h

theorem processRows_preserves_keys (rows : List Metric) :
    ∀ (res : RMap) (k : String), (lookupRM res k).isSome = true →
      (lookupRM (processRows res rows) k).isSome = true := by
  induction rows with
  | nil => intro res k h; exact h
  | cons r rows ih =>
    intro res k h
    exact ih (processRow res r) k (processRow_preserves_keys res r k h)

theorem foldl_processRows_preserves_keys (lls : List (List Metric)) :
    ∀ (seed : RMap) (k : String), (lookupRM seed k).isSome = true →
      (lookupRM (lls.foldl processRows seed) k).isSome = true := by
  induction lls with
  | nil => intro seed k h; exact h
  | cons rs lls ih =>
    intro seed k h
    exact ih (processRows seed rs) k (processRows_preserves_keys rs seed k h)

/-- C7: inside the partition loop of `QueryMetrics`, a per-partition
failure whose message contains `"no such table: "` contributes nothing and
scanning continues with the remaining partitions exactly as if the
partition were absent, while a failure with any other message stops the
loop and is returned to the caller together with the rows merged so far —
it is never swallowed. -/
theorem queryLoop_error_containment (limit : Int) (res : RMap)
    (rest : List PartitionOutcome) (rows : List Metric) (e : String) :
    (strContainsSub "no such table: " e = true →
      queryLoop limit res (([], some e) :: rest) = queryLoop limit res rest)
    ∧ (strContainsSub "no such table: " e = false →
      queryLoop limit res ((rows, some e) :: rest) = (processRows res rows, some e)) := by
  constructor
  · intro h
    simp [queryLoop, h, processRows]
  · intro h
    simp [queryLoop, h]

/-- C7 (witness): evaluating the containment at a concrete missing-table
error and a concrete hard error. -/
theorem queryLoop_error_containment_witness :
    (queryLoop 0 [] ([([], some "no such table: metrics_lifetime"), ([], none)])
        = queryLoop 0 [] [([], none)])
    ∧ (queryLoop 0 [] [([], some "disk I/O error")] = (processRows [] [], some "disk I/O error")) :=
  ⟨(queryLoop_error_containment 0 [] [([], none)] [] "no such table: metrics_lifetime").1 (by decide),
   (queryLoop_error_containment 0 [] [] [] "disk I/O error").2 (by decide)⟩

/-- C10: with no limit, when the partition loop hits a hard error after a
prefix of partitions that either succeeded or were skipped as absent, the
map handed back with the error is exactly the caller's seed merged with
every prefix partition's rows and the failing partition's already-scanned
rows — nothing accumulated is discarded; in particular every key of the
merged prefix (and of the seed) is still present. -/
theorem queryLoop_partial_results_survive (pre post : List PartitionOutcome)
    (rows : List Metric) (seed : RMap) (e : String)
    (hpre : ∀ o ∈ pre, ∀ e2, o.2 = some e2 → strContainsSub "no such table: " e2 = true)
    (he : strContainsSub "no such table: " e = false) :
    queryLoop 0 seed (pre ++ (rows, some e) :: post)
        = (processRows ((pre.map Prod.fst).foldl processRows seed) rows, some e)
    ∧ (∀ k, (lookupRM ((pre.map Prod.fst).foldl processRows seed) k).isSome = true →
        (lookupRM (processRows ((pre.map Prod.fst).foldl processRows seed) rows) k).isSome = true)
    ∧ (∀ k, (lookupRM seed k).isSome = true →
        (lookupRM (processRows ((pre.map Prod.fst).foldl processRows seed) rows) k).isSome = true) := by
  refine ⟨?_, ?_, ?_⟩
  · induction pre generalizing seed with
    | nil => simp [queryLoop, he]
    | cons o pre ih =>
      rcases o with ⟨rs, oe⟩
      have hpre2 : ∀ o ∈ pre, ∀ e2, o.2 = some e2 → strContainsSub "no such table: " e2 = true :=
        fun o ho e2 h2 => hpre o (List.mem_cons_of_mem _ ho) e2 h2
      cases oe with
      | none =>
        have step : queryLoop 0 seed (((rs, none) :: pre) ++ (rows, some e) :: post)
            = queryLoop 0 (processRows seed rs) (pre ++ (rows, some e) :: post) := by
          simp [queryLoop]
        rw [step, ih (processRows seed rs) hpre2]
        simp
      | some e2 =>
        have hm : strContainsSub "no such table: " e2 = true :=
          hpre (rs, some e2) (List.mem_cons_self _ _) e2 rfl
        have step : queryLoop 0 seed (((rs, some e2) :: pre) ++ (rows, some e) :: post)
            = queryLoop 0 (processRows seed rs) (pre ++ (rows, some e) :: post) := by
          simp [queryLoop, hm]
        rw [step, ih (processRows seed rs) hpre2]
        simp
  · intro k h
    exact processRows_preserves_keys rows _ k h
  · intro k h
    exact processRows_preserves_keys rows _ k
      (foldl_processRows_preserves_keys (pre.map Prod.fst) seed k h)

/-- C10 (witness): a concrete seed and a concrete skipped-then-failing
outcome list, evaluated. -/
theorem queryLoop_partial_results_survive_witness :
    queryLoop 0 [("k0", (⟨"ns", "n", "r", [], 0, 10⟩ : Metric))]
        ([([], some "no such table: metrics_lifetime")] ++ ([], some "disk I/O error") :: [])
      = (processRows (([([], some "no such table: metrics_lifetime")].map Prod.fst).foldl
          processRows [("k0", (⟨"ns", "n", "r", [], 0, 10⟩ : Metric))]) [],
         some "disk I/O error") := by
  exact (queryLoop_partial_results_survive [([], some "no such table: metrics_lifetime")] []
    [] [("k0", (⟨"ns", "n", "r", [], 0, 10⟩ : Metric))] "disk I/O error"
    (by intro o ho e2 h2
        simp at ho
        rw [ho] at h2
        cases h2
        decide)
    (by decide)).1

/-! ### C5: record validation boundary -/

/-- C5: evaluating `RecordMetric` at the boundary.  A strictly inverted
lifetime (`to_ts < from_ts`, here one second) is rejected with the
invalid-interval error before any partition is touched — the store is not
part of the returned error, so every table is left unchanged.  But a point
lifetime `to_ts = from_ts` (here 2025-01-01T00:00:00Z) is let through by
the strict `ToTS.Before(FromTS)` validation and then panics
(`index out of range` on the empty `partitions` slice in
`getLifetimeRanges`, modelled as `none`) instead of being accepted and
stored. -/
theorem RecordMetric_point_lifetime_behavior :
    RecordMetric [] (⟨"ns", "n", "r", [], 1735689600, 1735689600⟩ : Metric) = none
    ∧ RecordMetric [] (⟨"ns", "n", "r", [], 1735689601, 1735689600⟩ : Metric)
        = some (Except.error "from timestamp is greater than to timestamp") := by
  constructor
  · decide
  · decide

/-! ### C4: the partitioner -/



theorem getPartition_eq (t : Int) :
    getPartition t = { From := partitionStart t, To := partitionStart t + PartitionInterval - 1 } :=
  rfl

theorem partitionStart_add_interval (t : Int) :
    partitionStart (t + PartitionInterval) = partitionStart t + PartitionInterval := by
  simp only [partitionStart, getPartition, PartitionInterval, goZeroToUnix]
  omega

theorem stepCount_pos {a b : Int} (h : a < b) : 0 < stepCount a b := by
  simp only [stepCount, PartitionInterval]
  omega

theorem lifetimeLoop_closed_form :
    ∀ (k : Nat) (a b : Int), a < b → stepCount a b = k →
      lifetimeLoop a b
        = (List.range k).map (fun (i : Nat) => getPartition (a + (i : Int) * PartitionInterval)) := by
  intro k
  induction k with
  | zero =>
    intro a b hab hk
    exact absurd hk (by have := stepCount_pos hab; omega)
  | succ k ih =>
    intro a b hab hk
    rw [lifetimeLoop_unfold, if_pos hab]
    by_cases h2 : a + PartitionInterval < b
    · have hk2 : stepCount (a + PartitionInterval) b = k := by
        simp only [stepCount, PartitionInterval] at hk ⊢
        omega
      rw [ih (a + PartitionInterval) b h2 hk2]
      rw [List.range_succ_eq_map, List.map_cons, List.map_map]
      simp only [List.cons.injEq]
      refine ⟨?_, ?_⟩
      · norm_num
      · apply List.map_congr_left
        intro i _
        simp only [Function.comp]
        congr 1
        push_cast
        ring
    · have hk1 : k = 0 := by
        simp only [stepCount, PartitionInterval] at hk
        simp only [PartitionInterval] at h2
        omega
      subst hk1
      rw [lifetimeLoop_unfold, if_neg h2]
      show [getPartition a] = [getPartition (a + (0 : Nat) * PartitionInterval)]
      norm_num

theorem setFirstFrom_length (f : Int) (l : List timeRange) :
    (setFirstFrom f l).length = l.length := by
  cases l <;> simp [setFirstFrom]

theorem setLastTo_length (v : Int) (l : List timeRange) :
    (setLastTo v l).length = l.length := by
  induction l with
  | nil => rfl
  | cons tr rest ih =>
    cases rest with
    | nil => rfl
    | cons tr2 rest2 => simp only [setLastTo, List.length_cons] at ih ⊢; omega

theorem setLastTo_get (v : Int) :
    ∀ (l : List timeRange) (i : Nat) (hi : i < l.length),
      (setLastTo v l).get ⟨i, by rw [setLastTo_length]; exact hi⟩
        = if i = l.length - 1 then { l.get ⟨i, hi⟩ with To := v } else l.get ⟨i, hi⟩ := by
  intro l
  induction l with
  | nil => intro i hi; exact absurd hi (by simp)
  | cons tr rest ih =>
    intro i hi
    cases rest with
    | nil =>
      cases i with
      | zero => simp [setLastTo]
      | succ i => simp at hi
    | cons tr2 rest2 =>
      cases i with
      | zero =>
        have h0 : ¬ ((0 : Nat) = (tr :: tr2 :: rest2).length - 1) := by
          simp only [List.length_cons]
          omega
        rw [if_neg h0]
        rfl
      | succ i =>
        have hi2 : i < (tr2 :: rest2).length := by
          simp only [List.length_cons] at hi ⊢
          omega
        have key := ih i hi2
        by_cases hc : i = (tr2 :: rest2).length - 1
        · have hc2 : i + 1 = (tr :: tr2 :: rest2).length - 1 := by
            simp only [List.length_cons] at hc ⊢
            omega
          rw [if_pos hc] at key
          rw [if_pos hc2]
          exact key
        · have hc2 : ¬ (i + 1 = (tr :: tr2 :: rest2).length - 1) := by
            simp only [List.length_cons] at hc ⊢
            omega
          rw [if_neg hc] at key
          rw [if_neg hc2]
          exact key

theorem setFirstFrom_get (f : Int) (l : List timeRange) (i : Nat) (hi : i < l.length) :
    (setFirstFrom f l).get ⟨i, by rw [setFirstFrom_length]; exact hi⟩
      = if i = 0 then { l.get ⟨i, hi⟩ with From := f } else l.get ⟨i, hi⟩ := by
  cases l with
  | nil => exact absurd hi (by simp)
  | cons tr rest =>
    cases i with
    | zero => simp [setFirstFrom, List.get]
    | succ i => simp [setFirstFrom, List.get]

theorem partitionStart_idem (t : Int) :
    partitionStart (partitionStart t) = partitionStart t := by
  simp only [partitionStart, getPartition, PartitionInterval, goZeroToUnix]
  omega

theorem partitionStart_le (t : Int) : partitionStart t ≤ t := by
  simp only [partitionStart, getPartition, PartitionInterval, goZeroToUnix]
  omega

theorem lt_partitionStart_add (t : Int) : t < partitionStart t + PartitionInterval := by
  simp only [partitionStart, getPartition, PartitionInterval, goZeroToUnix]
  omega

/-- C4 (amended): for `from < to`, `getLifetimeRanges` returns
`⌈(to − from) / P⌉` ranges, one per step of `P = 84 days` taken from
`from` itself: the `i`-th element is the partition window containing
`from + i·P`, except that the first element's `From` is replaced by `from`
and the last element's `To` is replaced by `to` — so the last element can
extend past its own window's end, and the partition window containing `to`
gets no element of its own whenever `to` lies beyond the last stepped
window.  The sequence is non-empty and consecutive elements abut in time
(`To + 1 s = next.From`).  For `from = to` the function panics instead of
returning a non-empty sequence. -/
theorem getLifetimeRanges_spec (a b : Int) (h : a < b) :
    ∃ trs, getLifetimeRanges a b = some trs
      ∧ trs.length = stepCount a b
      ∧ 0 < trs.length
      ∧ (∀ (i : Nat) (hi : i < trs.length),
          trs.get ⟨i, hi⟩
            = { From := if i = 0 then a else partitionStart (a + (i : Int) * PartitionInterval),
                To := if i = trs.length - 1 then b
                      else partitionStart (a + (i : Int) * PartitionInterval)
                        + PartitionInterval - 1 })
      ∧ List.Chain' (fun x y => x.To + 1 = y.From) trs := by
  have hloop := lifetimeLoop_closed_form (stepCount a b) a b h rfl
  have hn : 0 < stepCount a b := stepCount_pos h
  set raw := (List.range (stepCount a b)).map
    (fun (i : Nat) => getPartition (a + (i : Int) * PartitionInterval)) with hraw
  have hrawlen : raw.length = stepCount a b := by simp [hraw]
  have hlen : (setFirstFrom a (setLastTo b raw)).length = raw.length := by
    rw [setFirstFrom_length, setLastTo_length]
  have hform : ∀ (i : Nat) (hi : i < (setFirstFrom a (setLastTo b raw)).length),
      (setFirstFrom a (setLastTo b raw)).get ⟨i, hi⟩
        = { From := if i = 0 then a else partitionStart (a + (i : Int) * PartitionInterval),
            To := if i = (setFirstFrom a (setLastTo b raw)).length - 1 then b
                  else partitionStart (a + (i : Int) * PartitionInterval)
                    + PartitionInterval - 1 } := by
    intro i hi
    have hi1 : i < (setLastTo b raw).length := by
      rw [setFirstFrom_length] at hi
      exact hi
    have hi2 : i < raw.length := by
      rw [setLastTo_length] at hi1
      exact hi1
    have hget : raw.get ⟨i, hi2⟩ = getPartition (a + (i : Int) * PartitionInterval) := by
      simp [hraw]
    have h2 := setLastTo_get b raw i hi2
    have h1 := setFirstFrom_get a (setLastTo b raw) i hi1
    have hgoal : (setFirstFrom a (setLastTo b raw)).get ⟨i, hi⟩
        = (setFirstFrom a (setLastTo b raw)).get
            ⟨i, by rw [setFirstFrom_length]; exact hi1⟩ := rfl
    rw [hgoal, h1, h2, hget, hlen]
    rcases Nat.eq_zero_or_pos i with hi0 | hi0
    · subst hi0
      by_cases hlast : (0 : Nat) = raw.length - 1
      · rw [if_pos hlast, if_pos rfl, if_pos rfl, if_pos hlast]
      · rw [if_neg hlast, if_pos rfl, if_pos rfl, if_neg hlast]
        simp [getPartition_eq]
    · have hne0 : ¬ (i = 0) := by omega
      by_cases hlast : i = raw.length - 1
      · rw [if_pos hlast, if_neg hne0, if_neg hne0, if_pos hlast]
        simp [getPartition_eq]
      · rw [if_neg hlast, if_neg hne0, if_neg hne0, if_neg hlast]
        simp [getPartition_eq]
  refine ⟨setFirstFrom a (setLastTo b raw), ?_, ?_, ?_, hform, ?_⟩
  · unfold getLifetimeRanges
    rw [hloop]
    rcases hr : raw with _ | ⟨tr, rest⟩
    · rw [hr] at hrawlen
      simp at hrawlen
      omega
    · rfl
  · rw [hlen, hrawlen]
  · rw [hlen, hrawlen]
    exact hn
  · rw [List.chain'_iff_get]
    intro i hilen
    have hi1 : i < (setFirstFrom a (setLastTo b raw)).length := by omega
    have hi2 : i + 1 < (setFirstFrom a (setLastTo b raw)).length := by omega
    rw [hform i hi1, hform (i + 1) hi2]
    have hto : ¬ (i = (setFirstFrom a (setLastTo b raw)).length - 1) := by omega
    rw [if_neg hto, if_neg (by omega : ¬ (i + 1 = 0))]
    have hshift : partitionStart (a + ((i : Nat) + 1 : Int) * PartitionInterval)
        = partitionStart (a + (i : Int) * PartitionInterval) + PartitionInterval := by
      rw [show a + ((i : Nat) + 1 : Int) * PartitionInterval
          = (a + (i : Int) * PartitionInterval) + PartitionInterval by ring]
      exact partitionStart_add_interval _
    simp only []
    push_cast
    push_cast at hshift
    omega

/-- C4 (counterexample): for `from = 1734912000` (mid-window of the
partition starting 2024-11-11) and `to = 1742169590` (84 days − 10 s
later, inside the *next* partition window, which starts at
`1738540800` = 2025-02-03), the window `[1738540800, 1738540800+P−1]`
intersects `[from, to]`, yet `getLifetimeRanges` returns a single range —
no element for that window, and the one range's `To` lies outside its own
window — refuting "one clipped sub-range per partition window
intersected".  Moreover `from = to` panics instead of returning a
non-empty sequence. -/
theorem getLifetimeRanges_misses_partition :
    getLifetimeRanges 1734912000 1742169590
        = some [({ From := 1734912000, To := 1742169590 } : timeRange)]
    ∧ (getPartition 1738540800).From ≤ 1742169590
    ∧ (1734912000 : Int) ≤ (getPartition 1738540800).To
    ∧ (∀ tr ∈ [({ From := 1734912000, To := 1742169590 } : timeRange)],
        partitionStart tr.From ≠ 1738540800)
    ∧ getLifetimeRanges 1735689600 1735689600 = none := by
  refine ⟨by decide, by decide, by decide, ?_, by decide⟩
  intro tr htr
  simp at htr
  subst htr
  decide

/-- C4 (witness): the amended element formula evaluated on the concrete
cross-partition split used by the repository's tests
(`from = 2025-01-01 − 6·P`, `to = from + 3·P`). -/
theorem getLifetimeRanges_spec_witness :
    (1692144000 : Int) < 1713916800
    ∧ getLifetimeRanges 1692144000 1713916800
        = some [({ From := 1692144000, To := 1694995199 } : timeRange),
                ({ From := 1694995200, To := 1702252799 } : timeRange),
                ({ From := 1702252800, To := 1713916800 } : timeRange)] := by
  constructor
  · decide
  · obtain ⟨trs, h1, h2, h3, h4, h5⟩ := getLifetimeRanges_spec 1692144000 1713916800 (by decide)
    rw [h1]
    congr 1
    have hlen : trs.length = 3 := by
      rw [h2]
      decide
    apply List.ext_get (by rw [hlen]; decide)
    intro i hi1 hi2
    have hi3 : i < 3 := by omega
    interval_cases i
    · rw [h4 0 hi1, hlen]
      show _ = ({ From := 1692144000, To := 1694995199 } : timeRange)
      decide
    · rw [h4 1 hi1, hlen]
      show _ = ({ From := 1694995200, To := 1702252799 } : timeRange)
      decide
    · rw [h4 2 hi1, hlen]
      show _ = ({ From := 1702252800, To := 1713916800 } : timeRange)
      decide

/-! ### C2: monotone union of recorded ranges -/



theorem lookupTable_setTable_self (st : Store) (k : Int × String) (rows : List Metric) :
    lookupTable (setTable st k rows) k = some rows := by
  unfold setTable
  by_cases h : (lookupTable st k).isSome = true
  · rw [if_pos h]
    unfold lookupTable at h ⊢
    rw [updateFirst_find?_self (fun (e : (Int × String) × List Metric) => e.1 = k)
      (fun e => (e.1, rows)) (fun x hx => hx) st]
    rcases hf : st.find? (fun (e : (Int × String) × List Metric) => decide (e.1 = k)) with _ | x
    · rw [hf] at h
      simp at h
    · simp
  · rw [if_neg h]
    unfold lookupTable at h ⊢
    rw [List.find?_append]
    rcases hf : st.find? (fun (e : (Int × String) × List Metric) => decide (e.1 = k)) with _ | x
    · simp [List.find?]
    · rw [hf] at h
      simp at h

theorem lookupTable_setTable_other (st : Store) (k k2 : Int × String) (rows : List Metric)
    (h : k2 ≠ k) : lookupTable (setTable st k rows) k2 = lookupTable st k2 := by
  unfold setTable
  by_cases hs : (lookupTable st k).isSome = true
  · rw [if_pos hs]
    unfold lookupTable
    rw [updateFirst_find?_other (fun (e : (Int × String) × List Metric) => e.1 = k)
      (fun (e : (Int × String) × List Metric) => e.1 = k2) (fun e => (e.1, rows))
      (fun x => rfl) ?_ st]
    intro x hx
    simp only [decide_eq_true_eq] at hx
    simp only [hx, decide_eq_false_iff_not]
    exact fun hh => h hh.symm
  · rw [if_neg hs]
    unfold lookupTable
    rw [List.find?_append]
    have h2 : List.find? (fun (e : (Int × String) × List Metric) => decide (e.1 = k2))
        [(k, rows)] = none := by
      rw [List.find?_eq_none]
      intro x hx
      simp only [List.mem_singleton] at hx
      subst hx
      simp only [decide_eq_true_eq]
      exact fun hh => h hh.symm
    rw [h2]
    cases st.find? (fun (e : (Int × String) × List Metric) => decide (e.1 = k2)) <;> simp

theorem lookupTable_init_getD (st : Store) (t : Int) (ns : String) :
    lookupTable (init st t ns) (partitionStart t, nsTableKey ns)
      = some ((lookupTable st (partitionStart t, nsTableKey ns)).getD []) := by
  unfold init
  rcases hf : lookupTable st (partitionStart t, nsTableKey ns) with _ | rows
  · simp only [Option.isSome_none, Bool.false_eq_true, if_false, Option.getD_none]
    unfold lookupTable at hf ⊢
    simp only [Option.map_eq_none'] at hf
    rw [List.find?_append, hf]
    simp [List.find?]
  · simp only [Option.isSome_some, Option.getD_some, if_true]
    exact hf

theorem lookupTable_init_other (st : Store) (t : Int) (ns : String) (k2 : Int × String)
    (h : k2 ≠ (partitionStart t, nsTableKey ns)) :
    lookupTable (init st t ns) k2 = lookupTable st k2 := by
  unfold init
  by_cases hs : (lookupTable st (partitionStart t, nsTableKey ns)).isSome = true
  · rw [if_pos hs]
  · rw [if_neg hs]
    unfold lookupTable
    rw [List.find?_append]
    have h2 : List.find? (fun (e : (Int × String) × List Metric) => decide (e.1 = k2))
        [((partitionStart t, nsTableKey ns), ([] : List Metric))] = none := by
      rw [List.find?_eq_none]
      intro x hx
      simp only [List.mem_singleton] at hx
      subst hx
      simp only [decide_eq_true_eq]
      exact fun hh => h hh.symm
    rw [h2]
    cases st.find? (fun (e : (Int × String) × List Metric) => decide (e.1 = k2)) <;> simp

theorem recordOnce_lookup_self (st : Store) (m : Metric) (tr : timeRange) :
    lookupTable (recordOnce st m tr) (targetKey m tr)
      = tableEvolve m (lookupTable st (targetKey m tr)) tr := by
  unfold recordOnce recordMetricToPartition tableEvolve targetKey
  have hinit := lookupTable_init_getD st tr.From m.Namespace
  rw [lookupTable_setTable_self, hinit]
  simp

theorem recordOnce_lookup_other (st : Store) (m : Metric) (tr : timeRange)
    (k2 : Int × String) (h : k2 ≠ targetKey m tr) :
    lookupTable (recordOnce st m tr) k2 = lookupTable st k2 := by
  unfold recordOnce recordMetricToPartition
  rw [lookupTable_setTable_other _ _ _ _ h, lookupTable_init_other]
  exact h

theorem sameIdentity_update (m : Metric) (a b : Int) :
    sameIdentity { m with FromTS := a, ToTS := b } m = true := by
  simp [sameIdentity]

theorem find?_upsertRows (rows : List Metric) (m : Metric) (tr : timeRange) :
    (upsertRows rows m tr).find? (fun r => sameIdentity r m)
      = some (match rows.find? (fun r => sameIdentity r m) with
              | none => { m with FromTS := tr.From, ToTS := tr.To }
              | some r => { r with FromTS := min tr.From r.FromTS, ToTS := max tr.To r.ToTS }) := by
  unfold upsertRows
  by_cases hany : rows.any (fun r => sameIdentity r m) = true
  · rw [if_pos hany]
    rw [updateFirst_find?_self (fun r => sameIdentity r m)
      (fun r => { r with FromTS := min tr.From r.FromTS, ToTS := max tr.To r.ToTS })
      (fun x hx => hx) rows]
    rcases hf : rows.find? (fun r => sameIdentity r m) with _ | r
    · rw [List.any_eq_true] at hany
      rw [List.find?_eq_none] at hf
      obtain ⟨x, hx, hpx⟩ := hany
      exact absurd hpx (hf x hx)
    · simp
  · rw [if_neg hany]
    have hf : rows.find? (fun r => sameIdentity r m) = none := by
      rw [List.find?_eq_none]
      intro x hx hpx
      exact hany (List.any_eq_true.mpr ⟨x, hx, hpx⟩)
    rw [List.find?_append, hf]
    simp [List.find?, sameIdentity_update]

theorem rowsRange_some (rows : List Metric) (m : Metric) :
    rowsRange (some rows) m
      = (rows.find? (fun r => sameIdentity r m)).map (fun r => (r.FromTS, r.ToTS)) := rfl

theorem rowsRange_none (m : Metric) : rowsRange none m = none := rfl

theorem rowsRange_tableEvolve (o : Option (List Metric)) (m : Metric) (tr : timeRange) :
    rowsRange (tableEvolve m o tr) m
      = some (match rowsRange o m with
              | none => (tr.From, tr.To)
              | some ft => (min tr.From ft.1, max tr.To ft.2)) := by
  unfold tableEvolve
  rw [rowsRange_some, find?_upsertRows]
  rcases o with _ | rows
  · simp [rowsRange_none, List.find?]
  · rw [rowsRange_some]
    simp only [Option.getD_some]
    rcases hf : rows.find? (fun r => sameIdentity r m) with _ | r
    · simp
    · simp

theorem rowsRange_foldl_evolve (m : Metric) (trs : List timeRange) :
    ∀ (o : Option (List Metric)),
      rowsRange (trs.foldl (tableEvolve m) o) m
        = trs.foldl hullStep (rowsRange o m) := by
  induction trs with
  | nil => intro o; rfl
  | cons tr trs ih =>
    intro o
    rw [List.foldl_cons, List.foldl_cons, ih (tableEvolve m o tr), rowsRange_tableEvolve]
    rcases rowsRange o m with _ | ft <;> rfl

theorem upsertRows_withLifetime (rows : List Metric) (base : Metric) (l : Int × Int)
    (tr : timeRange) : upsertRows rows (withLifetime base l) tr = upsertRows rows base tr := rfl

theorem tableEvolve_withLifetime (base : Metric) (l : Int × Int) :
    tableEvolve (withLifetime base l) = tableEvolve base := by
  funext o tr
  simp [tableEvolve, upsertRows_withLifetime]

theorem targetKey_withLifetime (base : Metric) (l : Int × Int) (tr : timeRange) :
    targetKey (withLifetime base l) tr = targetKey base tr := rfl

theorem foldl_recordOnce_lookup (m : Metric) (trs : List timeRange) :
    ∀ (st : Store) (k : Int × String),
      lookupTable (trs.foldl (fun s tr => recordOnce s m tr) st) k
        = (trs.filter (fun tr => targetKey m tr = k)).foldl (tableEvolve m) (lookupTable st k) := by
  induction trs with
  | nil => intro st k; rfl
  | cons tr trs ih =>
    intro st k
    rw [List.foldl_cons, List.filter_cons]
    by_cases hk : targetKey m tr = k
    · rw [if_pos (by simpa using hk), List.foldl_cons, ih]
      subst hk
      rw [recordOnce_lookup_self]
    · rw [if_neg (by simpa using hk), ih]
      rw [recordOnce_lookup_other st m tr k (fun hh => hk hh.symm)]

theorem RecordMetric_lookup (st : Store) (m : Metric) (st2 : Store)
    (h : RecordMetric st m = some (Except.ok st2)) (k : Int × String) :
    lookupTable st2 k
      = (((getLifetimeRanges m.FromTS m.ToTS).getD []).filter
          (fun tr => targetKey m tr = k)).foldl (tableEvolve m) (lookupTable st k) := by
  unfold RecordMetric at h
  by_cases hv : m.ToTS < m.FromTS
  · rw [if_pos hv] at h
    simp at h
  · rw [if_neg hv] at h
    rcases hg : getLifetimeRanges m.FromTS m.ToTS with _ | trs
    · rw [hg] at h
      simp at h
    · rw [hg] at h
      simp only [Option.some.injEq, Except.ok.injEq] at h
      subst h
      simp only [Option.getD_some]
      exact foldl_recordOnce_lookup m trs st k

theorem clipsTargeting_cons (k : Int × String) (m : Metric) (rest : List Metric) :
    clipsTargeting k (m :: rest)
      = ((getLifetimeRanges m.FromTS m.ToTS).getD []).filter (fun tr => targetKey m tr = k)
        ++ clipsTargeting k rest := rfl

theorem runRecords_lookup (base : Metric) (ls : List (Int × Int)) :
    ∀ (st st' : Store), runRecords st (callsOf base ls) = some st' → ∀ (k : Int × String),
      lookupTable st' k
        = (clipsTargeting k (callsOf base ls)).foldl (tableEvolve base) (lookupTable st k) := by
  induction ls with
  | nil =>
    intro st st' h k
    simp only [callsOf, List.map_nil, runRecords, Option.some.injEq] at h
    subst h
    rfl
  | cons l ls ih =>
    intro st st' h k
    simp only [callsOf, List.map_cons] at h ⊢
    unfold runRecords at h
    rcases hr : RecordMetric st (withLifetime base l) with _ | er
    · rw [hr] at h
      simp at h
    · rcases er with e | st2
      · rw [hr] at h
        simp at h
      · rw [hr] at h
        have hcall := RecordMetric_lookup st (withLifetime base l) st2 hr k
        rw [tableEvolve_withLifetime] at hcall
        have hseq := ih st2 st' h k
        simp only [callsOf] at hseq
        rw [hseq, hcall, clipsTargeting_cons, List.foldl_append]

/-- C2: starting from a store where identity `base` has no row in table
`k = (p, ns)`, after any finite sequence of successful `RecordMetric`
calls for that identity, the stored `[from_timestamp, to_timestamp]` row
in `k` equals the interval union of exactly the clipped sub-ranges of
those calls that targeted `k`; and each single update replaces the stored
`(f, t)` with `(min(new_from, f), max(new_to, t))`, so `from_timestamp`
never increases and `to_timestamp` never decreases. -/
theorem recordMetric_monotone_union (base : Metric) (ls : List (Int × Int))
    (st st' : Store) (k : Int × String)
    (h0 : findIdentityRange st k base = none)
    (hrun : runRecords st (callsOf base ls) = some st') :
    findIdentityRange st' k base = rangeUnion (clipsTargeting k (callsOf base ls))
    ∧ (∀ (st2 : Store) (tr : timeRange) (f t : Int),
        findIdentityRange st2 (targetKey base tr) base = some (f, t) →
        findIdentityRange (recordOnce st2 base tr) (targetKey base tr) base
            = some (min tr.From f, max tr.To t)
        ∧ min tr.From f ≤ f ∧ t ≤ max tr.To t) := by
  constructor
  · have hl := runRecords_lookup base ls st st' hrun k
    unfold findIdentityRange at h0 ⊢
    rw [hl, rowsRange_foldl_evolve base _ (lookupTable st k), h0]
    rfl
  · intro st2 tr f t hrange
    have hs := recordOnce_lookup_self st2 base tr
    unfold findIdentityRange at hrange ⊢
    rw [hs, rowsRange_tableEvolve, hrange]
    exact ⟨rfl, min_le_right _ _, le_max_right _ _⟩

set_option maxRecDepth 100000 in
/-- C2 (witness): two overlapping lifetimes recorded for one identity in
one partition; the stored row evaluates to the union
`[1735689000, 1735777000]`. -/
theorem recordMetric_monotone_union_witness :
    findIdentityRange
        [((1731283200, "ns"),
          [(⟨"ns", "n", "r", [⟨"dim1", "v1"⟩], 1735689000, 1735777000⟩ : Metric)])]
        (1731283200, "ns") (⟨"ns", "n", "r", [⟨"dim1", "v1"⟩], 0, 0⟩ : Metric)
      = rangeUnion (clipsTargeting (1731283200, "ns")
          (callsOf (⟨"ns", "n", "r", [⟨"dim1", "v1"⟩], 0, 0⟩ : Metric)
            [(1735689600, 1735776000), (1735689000, 1735777000)]))
    ∧ rangeUnion (clipsTargeting (1731283200, "ns")
          (callsOf (⟨"ns", "n", "r", [⟨"dim1", "v1"⟩], 0, 0⟩ : Metric)
            [(1735689600, 1735776000), (1735689000, 1735777000)]))
        = some (1735689000, 1735777000) :=
  ⟨(recordMetric_monotone_union (⟨"ns", "n", "r", [⟨"dim1", "v1"⟩], 0, 0⟩ : Metric)
      [(1735689600, 1735776000), (1735689000, 1735777000)] []
      [((1731283200, "ns"),
        [(⟨"ns", "n", "r", [⟨"dim1", "v1"⟩], 1735689000, 1735777000⟩ : Metric)])]
      (1731283200, "ns") (by decide) (by decide)).1,
   by decide⟩

/-! ### C3: partition coverage of `RecordMetric` -/

theorem hullStep_foldl_isSome (trs : List timeRange) :
    ∀ (o : Option (Int × Int)), trs ≠ [] → (trs.foldl hullStep o).isSome = true := by
  induction trs with
  | nil => intro o h; exact absurd rfl h
  | cons tr trs ih =>
    intro o _
    rw [List.foldl_cons]
    cases trs with
    | nil => rcases o with _ | ft <;> simp [hullStep]
    | cons tr2 rest => exact ih (hullStep o tr) (by simp)

/-- C3 (amended): a `RecordMetric` call with lifetime `[a, b]`, `a < b`,
writes the identity into exactly the partitions enumerated by
`getLifetimeRanges` — those containing `a + i·P` for
`i < ⌈(b − a)/P⌉`, which can omit the partition containing `b` (and for
`a = b` the call panics): after the call the identity's row exists in
every targeted table, every table not targeted is byte-identical to
before, and when the identity was previously nowhere, each table holds
exactly the union of the clipped sub-ranges that targeted it — its own
clip, or nothing. -/
theorem RecordMetric_partition_coverage (st : Store) (m : Metric)
    (h : m.FromTS < m.ToTS) :
    ∃ trs st2, getLifetimeRanges m.FromTS m.ToTS = some trs
    ∧ RecordMetric st m = some (Except.ok st2)
    ∧ (∀ tr ∈ trs, (findIdentityRange st2 (targetKey m tr) m).isSome = true)
    ∧ (∀ k, (∀ tr ∈ trs, targetKey m tr ≠ k) → lookupTable st2 k = lookupTable st k)
    ∧ ((∀ k, findIdentityRange st k m = none) →
        ∀ k, findIdentityRange st2 k m
          = rangeUnion (trs.filter (fun tr => targetKey m tr = k))) := by
  have hv : ¬ (m.ToTS < m.FromTS) := by omega
  obtain ⟨trs, hg, -, -, -, -⟩ := getLifetimeRanges_spec m.FromTS m.ToTS h
  refine ⟨trs, trs.foldl (fun s tr => recordOnce s m tr) st, hg, ?_, ?_, ?_, ?_⟩
  · unfold RecordMetric
    rw [if_neg hv, hg]
  · intro tr htr
    have hrec : RecordMetric st m
        = some (Except.ok (trs.foldl (fun s tr => recordOnce s m tr) st)) := by
      unfold RecordMetric
      rw [if_neg hv, hg]
    have hlk := RecordMetric_lookup st m _ hrec (targetKey m tr)
    rw [hg] at hlk
    simp only [Option.getD_some] at hlk
    unfold findIdentityRange
    rw [hlk, rowsRange_foldl_evolve]
    refine hullStep_foldl_isSome _ _ ?_
    intro hnil
    have : tr ∈ trs.filter (fun tr2 => targetKey m tr2 = targetKey m tr) :=
      List.mem_filter.mpr ⟨htr, by simp⟩
    rw [hnil] at this
    exact absurd this (by simp)
  · intro k hk
    have hrec : RecordMetric st m
        = some (Except.ok (trs.foldl (fun s tr => recordOnce s m tr) st)) := by
      unfold RecordMetric
      rw [if_neg hv, hg]
    have hlk := RecordMetric_lookup st m _ hrec k
    rw [hg] at hlk
    simp only [Option.getD_some] at hlk
    rw [hlk, List.filter_eq_nil_iff.mpr ?_]
    · rfl
    · intro tr htr
      simpa using hk tr htr
  · intro h0 k
    have hrec : RecordMetric st m
        = some (Except.ok (trs.foldl (fun s tr => recordOnce s m tr) st)) := by
      unfold RecordMetric
      rw [if_neg hv, hg]
    have hlk := RecordMetric_lookup st m _ hrec k
    rw [hg] at hlk
    simp only [Option.getD_some] at hlk
    unfold findIdentityRange
    rw [hlk, rowsRange_foldl_evolve]
    have h0k : rowsRange (lookupTable st k) m = none := h0 k
    rw [h0k]
    rfl

/-- C3 (counterexample): recording lifetime `[1734912000, 1742169590]`
(valid, 84 days − 10 s, reaching into the partition window that starts at
1738540800, which therefore intersects the lifetime) writes only the
table of partition 1731283200; the table pair `(1738540800, "ns")` does
not even exist afterwards, so the identity does not appear in every
partition whose window intersects the lifetime. -/
theorem RecordMetric_misses_partition :
    RecordMetric [] (⟨"ns", "n", "r", [], 1734912000, 1742169590⟩ : Metric)
        = some (Except.ok [((1731283200, "ns"),
            [(⟨"ns", "n", "r", [], 1734912000, 1742169590⟩ : Metric)])])
    ∧ (getPartition 1738540800).From ≤ 1742169590
    ∧ (1734912000 : Int) ≤ (getPartition 1738540800).To
    ∧ lookupTable [((1731283200, "ns"),
        [(⟨"ns", "n", "r", [], 1734912000, 1742169590⟩ : Metric)])] (1738540800, "ns") = none := by
  refine ⟨by decide, by decide, by decide, by decide⟩

/-- C3 (witness): the amended coverage theorem applied to that same
lifetime starting from the empty store. -/
theorem RecordMetric_partition_coverage_witness :
    ∃ trs st2, getLifetimeRanges (1734912000 : Int) 1742169590 = some trs
    ∧ RecordMetric [] (⟨"ns", "n", "r", [], 1734912000, 1742169590⟩ : Metric)
        = some (Except.ok st2)
    ∧ (∀ tr ∈ trs,
        (findIdentityRange st2 (targetKey (⟨"ns", "n", "r", [], 1734912000, 1742169590⟩ : Metric) tr)
          (⟨"ns", "n", "r", [], 1734912000, 1742169590⟩ : Metric)).isSome = true) := by
  obtain ⟨trs, st2, h1, h2, h3, h4, h5⟩ :=
    RecordMetric_partition_coverage [] (⟨"ns", "n", "r", [], 1734912000, 1742169590⟩ : Metric)
      (by decide)
  exact ⟨trs, st2, h1, h2, h3⟩

/-! ### C9: dimensions marshal/unmarshal round trip -/



theorem insertByName_perm (d : Dimension) :
    ∀ l : List Dimension, List.Perm (insertByName d l) (d :: l) := by
  intro l
  induction l with
  | nil => exact List.Perm.refl _
  | cons e rest ih =>
    unfold insertByName
    by_cases hlt : d.name.data < e.name.data
    · rw [if_pos hlt]
    · rw [if_neg hlt]
      exact List.Perm.trans (List.Perm.cons e ih) (List.Perm.swap d e rest)

theorem sortByName_perm : ∀ l : List Dimension, List.Perm (sortByName l) l := by
  intro l
  induction l with
  | nil => exact List.Perm.refl _
  | cons d rest ih =>
    unfold sortByName
    exact List.Perm.trans (insertByName_perm d (sortByName rest)) (List.Perm.cons d ih)

theorem scanStringBody_append (s : List Char) (rest : List Char) (h : '\"' ∉ s) :
    scanStringBody (s ++ '\"' :: rest) = some (s, rest) := by
  induction s with
  | nil => simp [scanStringBody]
  | cons c s ih =>
    have hc : ¬ (c = '\"') := fun hc => h (hc ▸ List.mem_cons_self c s)
    have hs : '\"' ∉ s := fun hx => h (List.mem_cons_of_mem _ hx)
    have h1 : scanStringBody ((c :: s) ++ '\"' :: rest)
        = if c = '\"' then some ([], s ++ '\"' :: rest)
          else match scanStringBody (s ++ '\"' :: rest) with
            | none => none
            | some (body, rem) => some (c :: body, rem) := rfl
    rw [h1, if_neg hc, ih hs]

theorem parseMember_memberChars (d : Dimension) (rest : List Char)
    (hn : goodStr d.name) (hv : goodStr d.value) :
    parseMember (memberChars d ++ rest) = some ((d.name, d.value), rest) := by
  have hnq : '\"' ∉ d.name.data := fun hx => (hn _ hx).1 rfl
  have hvq : '\"' ∉ d.value.data := fun hx => (hv _ hx).1 rfl
  have h1 : memberChars d ++ rest
      = '\"' :: (d.name.data ++ '\"' :: (':' :: ' ' :: '\"' :: (d.value.data ++ '\"' :: rest))) := by
    simp [memberChars]
  rw [h1]
  have h2 : parseMember ('\"' :: (d.name.data ++ '\"'
        :: (':' :: ' ' :: '\"' :: (d.value.data ++ '\"' :: rest))))
      = match scanStringBody (d.name.data ++ '\"'
          :: (':' :: ' ' :: '\"' :: (d.value.data ++ '\"' :: rest))) with
        | none => none
        | some (nameBody, rem) =>
          match rem with
          | c1 :: c2 :: c3 :: rest2 =>
            if c1 = ':' ∧ c2 = ' ' ∧ c3 = '\"' then
              match scanStringBody rest2 with
              | none => none
              | some (valBody, rem2) => some ((⟨nameBody⟩, ⟨valBody⟩), rem2)
            else none
          | _ => none := rfl
  rw [h2, scanStringBody_append d.name.data _ hnq]
  simp only [scanStringBody_append d.value.data rest hvq, and_self, if_true]

theorem joinMembers_cons (d : Dimension) (ds : List Dimension) :
    ∃ tail, joinMembers (d :: ds) = memberChars d ++ tail
      ∧ (ds = [] → tail = []) ∧ (ds ≠ [] → tail = ',' :: ' ' :: joinMembers ds) := by
  cases ds with
  | nil =>
    refine ⟨[], by simp [joinMembers], fun _ => rfl, fun h => absurd rfl h⟩
  | cons e rest =>
    refine ⟨',' :: ' ' :: joinMembers (e :: rest), rfl, fun h => absurd h (by simp), fun _ => rfl⟩

theorem parseMembers_joinMembers :
    ∀ (ps : List Dimension) (fuel : Nat),
      ps ≠ [] → (∀ d ∈ ps, goodStr d.name ∧ goodStr d.value) → ps.length ≤ fuel →
      parseMembers fuel (joinMembers ps ++ [Char.ofNat 125])
        = some (ps.map (fun d => (d.name, d.value)), []) := by
  intro ps
  induction ps with
  | nil => intro fuel h; exact absurd rfl h
  | cons d ds ih =>
    intro fuel _ hgood hlen
    rcases fuel with _ | fuel
    · simp at hlen
    · cases ds with
      | nil =>
        show parseMembers (fuel + 1) (joinMembers [d] ++ [Char.ofNat 125]) = _
        have hj : joinMembers [d] = memberChars d := rfl
        rw [hj]
        unfold parseMembers
        rw [parseMember_memberChars d _ (hgood d (List.mem_cons_self d [])).1
          (hgood d (List.mem_cons_self d [])).2]
        simp
      | cons e rest =>
        have hj : joinMembers (d :: e :: rest)
            = memberChars d ++ ',' :: ' ' :: joinMembers (e :: rest) := rfl
        rw [hj]
        unfold parseMembers
        rw [List.append_assoc]
        rw [parseMember_memberChars d _ (hgood d (List.mem_cons_self d _)).1
          (hgood d (List.mem_cons_self d _)).2]
        have ihh := ih fuel (by simp) (fun x hx => hgood x (List.mem_cons_of_mem _ hx))
          (by simpa using hlen)
        have hne : ¬ ((',' : Char) = Char.ofNat 125) := by decide
        simp [ihh, hne]

theorem length_le_length_joinMembers :
    ∀ ps : List Dimension, ps.length ≤ (joinMembers ps).length := by
  intro ps
  induction ps with
  | nil => simp [joinMembers]
  | cons d ds ih =>
    obtain ⟨tail, htail, h0, h1⟩ := joinMembers_cons d ds
    rw [htail]
    cases ds with
    | nil => simp [memberChars]
    | cons e rest =>
      rw [h1 (by simp)]
      simp only [List.length_append, List.length_cons, memberChars, List.length_cons] at ih ⊢
      omega

theorem parseObject_cons (c : Char) (cs : List Char) (hc2 : c ≠ Char.ofNat 125) :
    parseObject (Char.ofNat 123 :: c :: cs)
      = match parseMembers (Char.ofNat 123 :: c :: cs).length (c :: cs) with
        | some (ps, []) => some ps
        | _ => none := by
  show (if (Char.ofNat 123 : Char) = Char.ofNat 123 then
          if c = Char.ofNat 125 then (if cs = [] then some [] else none)
          else match parseMembers (Char.ofNat 123 :: c :: cs).length (c :: cs) with
            | some (ps, []) => some ps
            | _ => none
        else none) = _
  rw [if_pos rfl, if_neg hc2]

theorem parseObject_marshalDims (ds : List Dimension)
    (hg : ∀ d ∈ canonDims ds, goodStr d.name ∧ goodStr d.value) :
    parseObject (marshalDims ds)
      = some ((canonDims ds).map (fun d => (d.name, d.value))) := by
  rcases hc : canonDims ds with _ | ⟨d, rest⟩
  · have hm : marshalDims ds = [Char.ofNat 123, Char.ofNat 125] := by
      unfold marshalDims
      rw [hc]
      rfl
    rw [hm]
    rfl
  · obtain ⟨tail, htail, -, -⟩ := joinMembers_cons d rest
    have ht2 : joinMembers (d :: rest) = '\"' :: (d.name.data ++ '\"' :: ':' :: ' '
        :: '\"' :: (d.value.data ++ ['\"']) ++ tail) := by
      rw [htail]
      simp [memberChars]
    have hmarsh : marshalDims ds = Char.ofNat 123 :: '\"'
        :: ((d.name.data ++ '\"' :: ':' :: ' ' :: '\"' :: (d.value.data ++ ['\"']) ++ tail)
            ++ [Char.ofNat 125]) := by
      unfold marshalDims
      rw [hc, ht2]
      rfl
    rw [hmarsh, parseObject_cons '\"' _ (by decide)]
    have hL : ('\"' :: ((d.name.data ++ '\"' :: ':' :: ' ' :: '\"' :: (d.value.data ++ ['\"'])
          ++ tail) ++ [Char.ofNat 125]) : List Char)
        = joinMembers (d :: rest) ++ [Char.ofNat 125] := by
      rw [ht2]
      simp
    rw [hL]
    rw [parseMembers_joinMembers (d :: rest) _ (by simp)
      (by rw [← hc]; exact hg) ?_]
    · have h1 := length_le_length_joinMembers (d :: rest)
      simp only [List.length_cons, List.length_append] at h1 ⊢
      omega

theorem collapseLoop_nodup :
    ∀ (ps acc : List (String × String)),
      (∀ p ∈ ps, ∀ q ∈ acc, ¬ q.1 = p.1) → (ps.map Prod.fst).Nodup →
      ps.foldl (fun acc p =>
        if acc.any (fun q => q.1 = p.1)
        then acc.map (fun q => if q.1 = p.1 then (q.1, p.2) else q)
        else acc ++ [p]) acc = acc ++ ps := by
  intro ps
  induction ps with
  | nil => intro acc _ _; simp
  | cons p ps ih =>
    intro acc hdisj hnodup
    rw [List.foldl_cons]
    have hany : acc.any (fun q => q.1 = p.1) = false := by
      rw [Bool.eq_false_iff]
      intro hx
      rw [List.any_eq_true] at hx
      obtain ⟨q, hq, hq2⟩ := hx
      simp only [decide_eq_true_eq] at hq2
      exact hdisj p (List.mem_cons_self _ _) q hq hq2
    rw [hany]
    simp only [Bool.false_eq_true, if_false]
    rw [ih (acc ++ [p]) ?_ ?_]
    · simp
    · intro p2 hp2 q hq
      rcases List.mem_append.mp hq with hq1 | hq1
      · exact hdisj p2 (List.mem_cons_of_mem _ hp2) q hq1
      · simp only [List.mem_singleton] at hq1
        subst hq1
        simp only [List.map_cons, List.nodup_cons] at hnodup
        intro hcontra
        exact hnodup.1 (hcontra ▸ List.mem_map_of_mem Prod.fst hp2)
    · simp only [List.map_cons, List.nodup_cons] at hnodup
      exact hnodup.2

theorem collapseLastWins_nodup (ps : List (String × String))
    (h : (ps.map Prod.fst).Nodup) : collapseLastWins ps = ps := by
  unfold collapseLastWins
  rw [collapseLoop_nodup ps [] (by intro p _ q hq; simp at hq) h]
  simp

theorem canonDims_names_nodup (ds : List Dimension)
    (h : (ds.map Dimension.name).Nodup) :
    ((canonDims ds).map Dimension.name).Nodup := by
  have hperm : List.Perm ((sortByName ds).map Dimension.name) (ds.map Dimension.name) :=
    (sortByName_perm ds).map Dimension.name
  have hsorted : ((sortByName ds).map Dimension.name).Nodup := hperm.nodup_iff.mpr h
  have hsub : List.Sublist (canonDims ds) (sortByName ds) := List.filter_sublist _
  exact (hsub.map Dimension.name).nodup hsorted

theorem unmarshal_marshalDims (ds : List Dimension)
    (hgood : ∀ d ∈ ds, goodStr d.name ∧ goodStr d.value)
    (hnodup : (ds.map Dimension.name).Nodup) :
    unmarshalDims (marshalDims ds) = some (canonDims ds) := by
  have hmem : ∀ d ∈ canonDims ds, d ∈ ds := by
    intro d hd
    have h2 : d ∈ sortByName ds := List.mem_of_mem_filter hd
    exact (sortByName_perm ds).mem_iff.mp h2
  unfold unmarshalDims
  rw [parseObject_marshalDims ds (fun d hd => hgood d (hmem d hd))]
  show some (((collapseLastWins ((canonDims ds).map (fun d => (d.name, d.value)))).filter
      (fun p => p.1 ≠ "__name__")).map (fun p => ({ name := p.1, value := p.2 } : Dimension)))
    = some (canonDims ds)
  have hn2 : (((canonDims ds).map (fun d => (d.name, d.value))).map Prod.fst).Nodup := by
    rw [List.map_map]
    exact canonDims_names_nodup ds hnodup
  rw [collapseLastWins_nodup _ hn2]
  have hfil : ((canonDims ds).map (fun d => (d.name, d.value))).filter
      (fun p => p.1 ≠ "__name__") = (canonDims ds).map (fun d => (d.name, d.value)) := by
    rw [List.filter_eq_self]
    intro p hp
    obtain ⟨d, hd, hdp⟩ := List.mem_map.mp hp
    have := List.of_mem_filter hd
    simp only [decide_eq_true_eq] at this ⊢
    rw [← hdp]
    exact this
  rw [hfil]
  congr 1
  rw [List.map_map]
  have : ((fun p => ({ name := p.1, value := p.2 } : Dimension))
      ∘ (fun d : Dimension => (d.name, d.value))) = id := by
    funext d
    cases d
    rfl
  rw [this, List.map_id]

/-- C9 (amended): for dimension lists with pairwise-distinct names whose
names and values avoid the double quote, the backslash and control
characters (the emitter performs no JSON escaping, so outside this subset
the marshalled bytes are not the JSON encoding of the original values),
unmarshalling the marshalled JSON succeeds and yields exactly the
name-to-value pairs of the input with any `__name__` dimension removed —
`__name__` is excluded by both directions.  With duplicate names, the
pairs beyond the surviving one are lost (see the counterexample). -/
theorem dims_roundtrip (ds : List Dimension)
    (hgood : ∀ d ∈ ds, goodStr d.name ∧ goodStr d.value)
    (hnodup : (ds.map Dimension.name).Nodup) :
    ∃ out, unmarshalDims (marshalDims ds) = some out
    ∧ ∀ d : Dimension, d ∈ out ↔ (d ∈ ds ∧ d.name ≠ "__name__") := by
  refine ⟨canonDims ds, unmarshal_marshalDims ds hgood hnodup, ?_⟩
  intro d
  constructor
  · intro hd
    have h2 : d ∈ sortByName ds := List.mem_of_mem_filter hd
    have h3 := List.of_mem_filter hd
    simp only [decide_eq_true_eq] at h3
    exact ⟨(sortByName_perm ds).mem_iff.mp h2, h3⟩
  · intro ⟨hd, hname⟩
    exact List.mem_filter.mpr ⟨(sortByName_perm ds).mem_iff.mpr hd, by simpa using hname⟩

/-- C9 (counterexample): duplicate dimension names are not preserved — the
marshalled object carries both `"a"` keys, the string-map unmarshalling
keeps one, so `⟨a, 2⟩` is lost and the set of name-to-value pairs is not
preserved. -/
theorem dims_roundtrip_duplicate_loses_pair :
    unmarshalDims (marshalDims [⟨"a", "1"⟩, ⟨"a", "2"⟩])
        = some [(⟨"a", "1"⟩ : Dimension)]
    ∧ (⟨"a", "2"⟩ : Dimension) ∈ [(⟨"a", "1"⟩ : Dimension), ⟨"a", "2"⟩]
    ∧ (⟨"a", "2"⟩ : Dimension) ∉ [(⟨"a", "1"⟩ : Dimension)] := by
  refine ⟨by decide, by decide, by decide⟩

/-- C9 (witness): the amended round trip evaluated on a concrete list with
an out-of-order pair and a `__name__` entry. -/
theorem dims_roundtrip_witness :
    (∃ out, unmarshalDims (marshalDims [⟨"b", "2"⟩, ⟨"a", "1"⟩, ⟨"__name__", "x"⟩]) = some out
      ∧ ∀ d : Dimension, d ∈ out ↔
          (d ∈ [(⟨"b", "2"⟩ : Dimension), ⟨"a", "1"⟩, ⟨"__name__", "x"⟩] ∧ d.name ≠ "__name__"))
    ∧ unmarshalDims (marshalDims [⟨"b", "2"⟩, ⟨"a", "1"⟩, ⟨"__name__", "x"⟩])
        = some [(⟨"a", "1"⟩ : Dimension), ⟨"b", "2"⟩] :=
  ⟨dims_roundtrip [⟨"b", "2"⟩, ⟨"a", "1"⟩, ⟨"__name__", "x"⟩]
    (by intro d hd; fin_cases hd <;> constructor <;> intro c hc <;> fin_cases hc <;> decide)
    (by decide),
   by decide⟩

/-! ### C1: query soundness -/



theorem scanRows_wf (rows : List Metric)
    (h : ∀ r ∈ rows, (∀ d ∈ r.Dimensions, goodStr d.name ∧ goodStr d.value)
      ∧ (r.Dimensions.map Dimension.name).Nodup) :
    scanRows rows = (rows.map canonRow, none) := by
  induction rows with
  | nil => rfl
  | cons r rest ih =>
    have hr := h r (List.mem_cons_self r rest)
    have hrest : ∀ x ∈ rest, (∀ d ∈ x.Dimensions, goodStr d.name ∧ goodStr d.value)
        ∧ (x.Dimensions.map Dimension.name).Nodup :=
      fun x hx => h x (List.mem_cons_of_mem _ hx)
    simp only [scanRows, unmarshal_marshalDims r.Dimensions hr.1 hr.2, ih hrest]
    rfl

theorem fetchPartition_missing (st : Store) (ns : String) (conds : List Cond)
    (rx : String → String → Bool) (limit : Int) (tr : timeRange)
    (h : lookupTable st (partitionStart tr.From, nsTableKey ns) = none) :
    fetchPartition st ns conds rx limit tr = ([], some "no such table: metrics_lifetime") := by
  unfold fetchPartition
  rw [h]

theorem fetchPartition_present (st : Store) (ns : String) (conds : List Cond)
    (rx : String → String → Bool) (tr : timeRange) (rows : List Metric)
    (h : lookupTable st (partitionStart tr.From, nsTableKey ns) = some rows)
    (hwf : ∀ r ∈ rows, (∀ d ∈ r.Dimensions, goodStr d.name ∧ goodStr d.value)
      ∧ (r.Dimensions.map Dimension.name).Nodup) :
    fetchPartition st ns conds rx 0 tr = (partitionRows st ns conds rx tr, none) := by
  unfold fetchPartition partitionRows
  rw [h]
  have hs := scanRows_wf
    (rows.filter (fun r => timeCondHolds tr r && conds.all (condHolds rx r)))
    (fun r hr => hwf r (List.mem_of_mem_filter hr))
  simp [hs]

theorem queryLoop_zero (outs : List PartitionOutcome)
    (h : ∀ o ∈ outs, o.2 = none
      ∨ ∃ e, o.2 = some e ∧ strContainsSub "no such table: " e = true) :
    ∀ res : RMap, queryLoop 0 res outs = ((outs.map Prod.fst).foldl processRows res, none) := by
  induction outs with
  | nil => intro res; rfl
  | cons o rest ih =>
    intro res
    have hrest : ∀ x ∈ rest, x.2 = none
        ∨ ∃ e, x.2 = some e ∧ strContainsSub "no such table: " e = true :=
      fun x hx => h x (List.mem_cons_of_mem _ hx)
    rcases o with ⟨rows, oe⟩
    rcases h ⟨rows, oe⟩ (List.mem_cons_self _ rest) with ho | ⟨e, he, hce⟩
    · obtain rfl : oe = none := ho
      show queryLoop 0 res ((rows, none) :: rest) = _
      simp only [queryLoop]
      rw [if_neg (by simp)]
      exact ih hrest (processRows res rows)
    · obtain rfl : oe = some e := he
      show queryLoop 0 res ((rows, some e) :: rest) = _
      simp only [queryLoop]
      rw [if_pos hce]
      exact ih hrest (processRows res rows)

theorem QueryMetrics_run (st : Store) (rx : String → String → Bool) (a b : Int)
    (lm : List Matcher) (conds : List Cond) (ns : String) (trs : List timeRange) (seed : RMap)
    (hb : buildLabelConditions lm = Except.ok (conds, ns))
    (htrs : getLifetimeRanges a b = some trs)
    (hwf : ∀ tr ∈ trs, ∀ rows,
      lookupTable st (partitionStart tr.From, nsTableKey ns) = some rows →
      ∀ r ∈ rows, (∀ d ∈ r.Dimensions, goodStr d.name ∧ goodStr d.value)
        ∧ (r.Dimensions.map Dimension.name).Nodup) :
    QueryMetrics st rx a b lm 0 seed
      = some ((trs.map (partitionRows st ns conds rx)).foldl processRows seed, none) := by
  have houts : ∀ o ∈ trs.map (fetchPartition st ns conds rx 0), o.2 = none
      ∨ ∃ e, o.2 = some e ∧ strContainsSub "no such table: " e = true := by
    intro o ho
    obtain ⟨tr, htr, rfl⟩ := List.mem_map.mp ho
    rcases hl : lookupTable st (partitionStart tr.From, nsTableKey ns) with _ | rows
    · right
      refine ⟨"no such table: metrics_lifetime", ?_, by decide⟩
      rw [fetchPartition_missing st ns conds rx 0 tr hl]
    · left
      rw [fetchPartition_present st ns conds rx tr rows hl (hwf tr htr rows hl)]
  have hfst : (trs.map (fetchPartition st ns conds rx 0)).map Prod.fst
      = trs.map (partitionRows st ns conds rx) := by
    rw [List.map_map]
    apply List.map_congr_left
    intro tr htr
    rcases hl : lookupTable st (partitionStart tr.From, nsTableKey ns) with _ | rows
    · show (fetchPartition st ns conds rx 0 tr).1 = _
      rw [fetchPartition_missing st ns conds rx 0 tr hl]
      unfold partitionRows
      rw [hl]
    · show (fetchPartition st ns conds rx 0 tr).1 = _
      rw [fetchPartition_present st ns conds rx tr rows hl (hwf tr htr rows hl)]
  simp only [QueryMetrics, hb, htrs]
  rw [queryLoop_zero _ houts seed, hfst]

theorem lookupRM_processRows (rows : List Metric) :
    ∀ (res : RMap) (k : String),
      lookupRM (processRows res rows) k = rows.foldl (mergeRow k) (lookupRM res k) := by
  induction rows with
  | nil => intro res k; rfl
  | cons r rest ih =>
    intro res k
    show lookupRM (processRows (processRow res r) rest) k = _
    rw [ih (processRow res r) k, lookupRM_processRow]
    show rest.foldl (mergeRow k) _ = rest.foldl (mergeRow k) (mergeRow k (lookupRM res k) r)
    congr 1
    by_cases hk : UniqueKey r = k
    · rcases hacc : lookupRM res k with _ | mm <;> simp [mergeRow, hk, hacc]
    · simp [mergeRow, hk]

theorem lookupRM_foldl_processRows (lls : List (List Metric)) :
    ∀ (seed : RMap) (k : String),
      lookupRM (lls.foldl processRows seed) k
        = lls.flatten.foldl (mergeRow k) (lookupRM seed k) := by
  induction lls with
  | nil => intro seed k; rfl
  | cons rs lls ih =>
    intro seed k
    show lookupRM (lls.foldl processRows (processRows seed rs)) k = _
    rw [ih, lookupRM_processRows]
    rw [List.flatten_cons, List.foldl_append]

theorem mergeRow_foldl_isSome (k : String) (rows : List Metric) :
    ∀ acc : Option Metric,
      ((rows.foldl (mergeRow k) acc).isSome = true)
        ↔ (acc.isSome = true ∨ ∃ r ∈ rows, UniqueKey r = k) := by
  induction rows with
  | nil => intro acc; simp
  | cons r rest ih =>
    intro acc
    show ((rest.foldl (mergeRow k) (mergeRow k acc r)).isSome = true) ↔ _
    rw [ih]
    by_cases hk : UniqueKey r = k
    · rcases acc with _ | mm <;> simp [mergeRow, hk]
    · simp [mergeRow, hk]

theorem mergeRow_foldl_some (k : String) (rows : List Metric) :
    ∀ (m0 m : Metric), rows.foldl (mergeRow k) (some m0) = some m →
      (m.FromTS ≤ m0.FromTS ∧ m0.ToTS ≤ m.ToTS)
      ∧ (∀ r ∈ rows, UniqueKey r = k → m.FromTS ≤ r.FromTS ∧ r.ToTS ≤ m.ToTS)
      ∧ (m.FromTS = m0.FromTS ∨ ∃ r ∈ rows, UniqueKey r = k ∧ m.FromTS = r.FromTS)
      ∧ (m.ToTS = m0.ToTS ∨ ∃ r ∈ rows, UniqueKey r = k ∧ m.ToTS = r.ToTS) := by
  induction rows with
  | nil =>
    intro m0 m h
    simp only [List.foldl_nil, Option.some.injEq] at h
    subst h
    simp
  | cons r rest ih =>
    intro m0 m h
    by_cases hk : UniqueKey r = k
    · have hstep : mergeRow k (some m0) r
          = some { m0 with FromTS := min r.FromTS m0.FromTS,
                           ToTS := max r.ToTS m0.ToTS } := by
        simp [mergeRow, hk]
      rw [List.foldl_cons, hstep] at h
      obtain ⟨⟨hb1, hb2⟩, hall, hfrom, hto⟩ := ih _ m h
      simp only at hb1 hb2 hfrom hto
      refine ⟨⟨le_trans hb1 (min_le_right _ _), le_trans (le_max_right _ _) hb2⟩,
        ?_, ?_, ?_⟩
      · intro x hx hkx
        rcases List.mem_cons.mp hx with rfl | hx2
        · exact ⟨le_trans hb1 (min_le_left _ _), le_trans (le_max_left _ _) hb2⟩
        · exact hall x hx2 hkx
      · rcases hfrom with he | ⟨x, hx, hkx, he⟩
        · rcases min_choice r.FromTS m0.FromTS with hmin | hmin
          · exact Or.inr ⟨r, List.mem_cons_self r rest, hk, by rw [he, hmin]⟩
          · exact Or.inl (by rw [he, hmin])
        · exact Or.inr ⟨x, List.mem_cons_of_mem _ hx, hkx, he⟩
      · rcases hto with he | ⟨x, hx, hkx, he⟩
        · rcases max_choice r.ToTS m0.ToTS with hmax | hmax
          · exact Or.inr ⟨r, List.mem_cons_self r rest, hk, by rw [he, hmax]⟩
          · exact Or.inl (by rw [he, hmax])
        · exact Or.inr ⟨x, List.mem_cons_of_mem _ hx, hkx, he⟩
    · have hstep : mergeRow k (some m0) r = some m0 := by
        simp [mergeRow, hk]
      rw [List.foldl_cons, hstep] at h
      obtain ⟨hb, hall, hfrom, hto⟩ := ih _ m h
      refine ⟨hb, ?_, ?_, ?_⟩
      · intro x hx hkx
        rcases List.mem_cons.mp hx with rfl | hx2
        · exact absurd hkx hk
        · exact hall x hx2 hkx
      · rcases hfrom with he | ⟨x, hx, hkx, he⟩
        · exact Or.inl he
        · exact Or.inr ⟨x, List.mem_cons_of_mem _ hx, hkx, he⟩
      · rcases hto with he | ⟨x, hx, hkx, he⟩
        · exact Or.inl he
        · exact Or.inr ⟨x, List.mem_cons_of_mem _ hx, hkx, he⟩

theorem mergeRow_foldl_none (k : String) (rows : List Metric) :
    ∀ m : Metric, rows.foldl (mergeRow k) none = some m →
      (∀ r ∈ rows, UniqueKey r = k → m.FromTS ≤ r.FromTS ∧ r.ToTS ≤ m.ToTS)
      ∧ (∃ r ∈ rows, UniqueKey r = k ∧ m.FromTS = r.FromTS)
      ∧ (∃ r ∈ rows, UniqueKey r = k ∧ m.ToTS = r.ToTS) := by
  induction rows with
  | nil =>
    intro m h
    simp at h
  | cons r rest ih =>
    intro m h
    by_cases hk : UniqueKey r = k
    · have hstep : mergeRow k none r = some r := by simp [mergeRow, hk]
      rw [List.foldl_cons, hstep] at h
      obtain ⟨⟨hb1, hb2⟩, hall, hfrom, hto⟩ := mergeRow_foldl_some k rest r m h
      refine ⟨?_, ?_, ?_⟩
      · intro x hx hkx
        rcases List.mem_cons.mp hx with rfl | hx2
        · exact ⟨hb1, hb2⟩
        · exact hall x hx2 hkx
      · rcases hfrom with he | ⟨x, hx, hkx, he⟩
        · exact ⟨r, List.mem_cons_self r rest, hk, he⟩
        · exact ⟨x, List.mem_cons_of_mem _ hx, hkx, he⟩
      · rcases hto with he | ⟨x, hx, hkx, he⟩
        · exact ⟨r, List.mem_cons_self r rest, hk, he⟩
        · exact ⟨x, List.mem_cons_of_mem _ hx, hkx, he⟩
    · have hstep : mergeRow k none r = none := by simp [mergeRow, hk]
      rw [List.foldl_cons, hstep] at h
      obtain ⟨hall, hfrom, hto⟩ := ih m h
      refine ⟨?_, ?_, ?_⟩
      · intro x hx hkx
        rcases List.mem_cons.mp hx with rfl | hx2
        · exact absurd hkx hk
        · exact hall x hx2 hkx
      · obtain ⟨x, hx, hkx, he⟩ := hfrom
        exact ⟨x, List.mem_cons_of_mem _ hx, hkx, he⟩
      · obtain ⟨x, hx, hkx, he⟩ := hto
        exact ⟨x, List.mem_cons_of_mem _ hx, hkx, he⟩

theorem updateFirst_map_fst (p : String × Metric → Bool)
    (f : String × Metric → String × Metric) (hf : ∀ e, (f e).1 = e.1) :
    ∀ res : RMap, (updateFirst p f res).map Prod.fst = res.map Prod.fst := by
  intro res
  induction res with
  | nil => rfl
  | cons e rest ih =>
    unfold updateFirst
    by_cases hp : p e = true
    · rw [if_pos hp]
      simp [hf]
    · rw [if_neg hp]
      simp only [List.map_cons, ih]

theorem processRow_keys_nodup (res : RMap) (m : Metric)
    (h : (res.map Prod.fst).Nodup) : ((processRow res m).map Prod.fst).Nodup := by
  unfold processRow
  by_cases hany : res.any (fun e => e.1 = UniqueKey m) = true
  · rw [if_pos hany]
    rw [updateFirst_map_fst (fun e => e.1 = UniqueKey m)
      (fun e => (e.1, { e.2 with FromTS := min m.FromTS e.2.FromTS,
                                 ToTS := max m.ToTS e.2.ToTS }))
      (fun e => rfl) res]
    exact h
  · rw [if_neg hany]
    have hnot : UniqueKey m ∉ res.map Prod.fst := by
      intro hmem
      obtain ⟨e, he, heq⟩ := List.mem_map.mp hmem
      exact hany (List.any_eq_true.mpr ⟨e, he, by simp [heq]⟩)
    rw [List.map_append]
    simp [List.nodup_append, h, hnot]

theorem processRows_keys_nodup (rows : List Metric) :
    ∀ res : RMap, (res.map Prod.fst).Nodup → ((processRows res rows).map Prod.fst).Nodup := by
  induction rows with
  | nil => intro res h; exact h
  | cons r rest ih =>
    intro res h
    exact ih (processRow res r) (processRow_keys_nodup res r h)

theorem foldl_processRows_keys_nodup (lls : List (List Metric)) :
    ∀ seed : RMap, (seed.map Prod.fst).Nodup
      → ((lls.foldl processRows seed).map Prod.fst).Nodup := by
  induction lls with
  | nil => intro seed h; exact h
  | cons rs lls ih =>
    intro seed h
    exact ih (processRows seed rs) (processRows_keys_nodup rs seed h)

theorem lookupTable_wf (st : Store) (k : Int × String) (rows : List Metric)
    (hwf : storeWF st) (h : lookupTable st k = some rows) :
    ∀ r ∈ rows, rowWF k.1 r := by
  unfold lookupTable at h
  rcases hf : st.find? (fun e => e.1 = k) with _ | e
  · rw [hf] at h
    simp at h
  · rw [hf] at h
    simp only [Option.map_some', Option.some.injEq] at h
    have hmem : e ∈ st := List.mem_of_find?_eq_some hf
    have hkey : e.1 = k := by
      have := List.find?_some hf
      simpa using this
    intro r hr
    have := hwf e hmem r (by rw [h]; exact hr)
    rw [hkey] at this
    exact this

theorem mem_partitionRows (st : Store) (ns : String) (conds : List Cond)
    (rx : String → String → Bool) (tr : timeRange) (x : Metric) :
    x ∈ partitionRows st ns conds rx tr
      ↔ ∃ rows, lookupTable st (partitionStart tr.From, nsTableKey ns) = some rows
          ∧ ∃ r ∈ rows, timeCondHolds tr r = true
              ∧ conds.all (condHolds rx r) = true ∧ canonRow r = x := by
  unfold partitionRows
  rcases hl : lookupTable st (partitionStart tr.From, nsTableKey ns) with _ | rows
  · simp
  · simp only [Option.some.injEq, List.mem_map, List.mem_filter, Bool.and_eq_true]
    constructor
    · rintro ⟨r, ⟨hr, ht, hc⟩, hx⟩
      exact ⟨rows, rfl, r, hr, ht, hc, hx⟩
    · rintro ⟨rows2, h2, r, hr, ht, hc, hx⟩
      obtain rfl : rows2 = rows := h2.symm
      exact ⟨r, ⟨hr, ht, hc⟩, hx⟩

theorem timeCond_iff_overlap (a b : Int) (hab : a < b) (trs : List timeRange)
    (htrs : getLifetimeRanges a b = some trs) (tr : timeRange) (htr : tr ∈ trs)
    (r : Metric) (hp : partitionStart r.FromTS = partitionStart tr.From)
    (hr : r.FromTS ≤ r.ToTS) :
    timeCondHolds tr r = true ↔ (r.FromTS ≤ b ∧ a ≤ r.ToTS) := by
  obtain ⟨trs2, htrs2, hlen, hpos, hform, -⟩ := getLifetimeRanges_spec a b hab
  rw [htrs] at htrs2
  obtain rfl : trs = trs2 := by injection htrs2
  obtain ⟨⟨i, hi⟩, hget⟩ := List.mem_iff_get.mp htr
  have hform2 := hform i hi
  rw [hget] at hform2
  have hF : tr.From = if i = 0 then a
      else partitionStart (a + (i : Int) * PartitionInterval) := by rw [hform2]
  have hT : tr.To = if i = trs.length - 1 then b
      else partitionStart (a + (i : Int) * PartitionInterval) + PartitionInterval - 1 := by
    rw [hform2]
  rw [hF] at hp
  simp only [timeCondHolds, Bool.and_eq_true, decide_eq_true_eq]
  rw [hF, hT]
  by_cases hi0 : i = 0
  · subst hi0
    rw [if_pos rfl] at hp ⊢
    by_cases hil : (0 : Nat) = trs.length - 1
    · rw [if_pos hil]
    · rw [if_neg hil]
      simp only [stepCount, partitionStart, getPartition, PartitionInterval,
        goZeroToUnix, Nat.cast_zero] at hp hlen ⊢
      omega
  · rw [if_neg hi0] at hp ⊢
    by_cases hil : i = trs.length - 1
    · rw [if_pos hil]
      simp only [stepCount, partitionStart, getPartition, PartitionInterval,
        goZeroToUnix] at hp hlen ⊢
      omega
    · rw [if_neg hil]
      simp only [stepCount, partitionStart, getPartition, PartitionInterval,
        goZeroToUnix] at hp hlen ⊢
      omega

/-- C1 (amended): for a query range with `from < to` (at `from = to` the
call panics in `getLifetimeRanges`), matchers that compile (per C6 a
non-empty value on the last matcher named `Namespace` suffices), a zero
limit, an empty seed map and a wellformed store, `QueryMetrics` returns
without error exactly the identities that have a stored row, satisfying
every compiled condition, whose lifetime overlaps `[from, to]`, in one of
the partitions enumerated by `getLifetimeRanges` — NOT in "some partition":
a partition whose window intersects `[from, to]` but that the stepping of
`getLifetimeRanges` skips is never scanned (see the counterexample).  Each
returned identity appears once, keyed by the unique key of its scanned row
(namespace, metric name, region, then the round-tripped dimensions, which
are sorted by name and `__name__`-free), and its returned lifetime is the
union (interval hull) of the stored per-partition ranges that contributed:
it bounds every contributing row's range, and both endpoints are attained
by contributing rows. -/
theorem QueryMetrics_sound (st : Store) (rx : String → String → Bool) (a b : Int)
    (lm : List Matcher) (conds : List Cond) (ns : String)
    (hb : buildLabelConditions lm = Except.ok (conds, ns))
    (hab : a < b) (hwf : storeWF st) :
    ∃ trs res,
      getLifetimeRanges a b = some trs
      ∧ QueryMetrics st rx a b lm 0 [] = some (res, none)
      ∧ (res.map Prod.fst).Nodup
      ∧ (∀ k : String,
          (lookupRM res k).isSome = true
            ↔ ∃ tr ∈ trs, ∃ rows,
                lookupTable st (partitionStart tr.From, nsTableKey ns) = some rows
                ∧ ∃ r ∈ rows, r.FromTS ≤ b ∧ a ≤ r.ToTS
                    ∧ conds.all (condHolds rx r) = true
                    ∧ UniqueKey (canonRow r) = k)
      ∧ (∀ (k : String) (m : Metric), lookupRM res k = some m →
          (∀ tr ∈ trs, ∀ rows,
              lookupTable st (partitionStart tr.From, nsTableKey ns) = some rows →
              ∀ r ∈ rows, r.FromTS ≤ b → a ≤ r.ToTS →
                conds.all (condHolds rx r) = true → UniqueKey (canonRow r) = k →
                m.FromTS ≤ r.FromTS ∧ r.ToTS ≤ m.ToTS)
          ∧ (∃ tr ∈ trs, ∃ rows,
              lookupTable st (partitionStart tr.From, nsTableKey ns) = some rows
              ∧ ∃ r ∈ rows, r.FromTS ≤ b ∧ a ≤ r.ToTS
                  ∧ conds.all (condHolds rx r) = true
                  ∧ UniqueKey (canonRow r) = k ∧ m.FromTS = r.FromTS)
          ∧ (∃ tr ∈ trs, ∃ rows,
              lookupTable st (partitionStart tr.From, nsTableKey ns) = some rows
              ∧ ∃ r ∈ rows, r.FromTS ≤ b ∧ a ≤ r.ToTS
                  ∧ conds.all (condHolds rx r) = true
                  ∧ UniqueKey (canonRow r) = k ∧ m.ToTS = r.ToTS)) := by
  obtain ⟨trs, htrs, -, -, -, -⟩ := getLifetimeRanges_spec a b hab
  have hwfrows : ∀ tr ∈ trs, ∀ rows,
      lookupTable st (partitionStart tr.From, nsTableKey ns) = some rows →
      ∀ r ∈ rows, (∀ d ∈ r.Dimensions, goodStr d.name ∧ goodStr d.value)
        ∧ (r.Dimensions.map Dimension.name).Nodup := by
    intro tr _ rows hl r hrr
    have hw := lookupTable_wf st _ rows hwf hl r hrr
    exact ⟨hw.1, hw.2.1⟩
  have hbridge : ∀ tr ∈ trs, ∀ rows,
      lookupTable st (partitionStart tr.From, nsTableKey ns) = some rows →
      ∀ r ∈ rows, (timeCondHolds tr r = true ↔ (r.FromTS ≤ b ∧ a ≤ r.ToTS)) := by
    intro tr htr rows hrows r hrr
    have hw := lookupTable_wf st _ rows hwf hrows r hrr
    exact timeCond_iff_overlap a b hab trs htrs tr htr r hw.2.2.1 hw.2.2.2
  have hmemflat : ∀ x : Metric, x ∈ (trs.map (partitionRows st ns conds rx)).flatten
      ↔ ∃ tr ∈ trs, ∃ rows,
          lookupTable st (partitionStart tr.From, nsTableKey ns) = some rows
          ∧ ∃ r ∈ rows, timeCondHolds tr r = true
              ∧ conds.all (condHolds rx r) = true ∧ canonRow r = x := by
    intro x
    rw [List.mem_flatten]
    constructor
    · rintro ⟨l, hl, hxl⟩
      obtain ⟨tr, htr, rfl⟩ := List.mem_map.mp hl
      obtain ⟨rows, hrows, r, hrr, ht, hc, hx⟩ := (mem_partitionRows st ns conds rx tr x).mp hxl
      exact ⟨tr, htr, rows, hrows, r, hrr, ht, hc, hx⟩
    · rintro ⟨tr, htr, rows, hrows, r, hrr, ht, hc, hx⟩
      exact ⟨partitionRows st ns conds rx tr, List.mem_map_of_mem _ htr,
        (mem_partitionRows st ns conds rx tr x).mpr ⟨rows, hrows, r, hrr, ht, hc, hx⟩⟩
  have hlk : ∀ k : String,
      lookupRM ((trs.map (partitionRows st ns conds rx)).foldl processRows []) k
        = ((trs.map (partitionRows st ns conds rx)).flatten).foldl (mergeRow k) none := by
    intro k
    rw [lookupRM_foldl_processRows]
    rfl
  refine ⟨trs, (trs.map (partitionRows st ns conds rx)).foldl processRows [], htrs,
    QueryMetrics_run st rx a b lm conds ns trs [] hb htrs hwfrows, ?_, ?_, ?_⟩
  · exact foldl_processRows_keys_nodup _ [] (by simp)
  · intro k
    rw [hlk k, mergeRow_foldl_isSome]
    simp only [Option.isSome_none, Bool.false_eq_true, false_or]
    constructor
    · rintro ⟨cr, hcr, hkey⟩
      obtain ⟨tr, htr, rows, hrows, r, hrr, ht, hc, rfl⟩ := (hmemflat cr).mp hcr
      have hov := (hbridge tr htr rows hrows r hrr).mp ht
      exact ⟨tr, htr, rows, hrows, r, hrr, hov.1, hov.2, hc, hkey⟩
    · rintro ⟨tr, htr, rows, hrows, r, hrr, hfb, hat, hc, hkey⟩
      exact ⟨canonRow r, (hmemflat (canonRow r)).mpr
        ⟨tr, htr, rows, hrows, r, hrr, (hbridge tr htr rows hrows r hrr).mpr ⟨hfb, hat⟩,
          hc, rfl⟩, hkey⟩
  · intro k m hm
    rw [hlk k] at hm
    obtain ⟨hall, hfrom, hto⟩ := mergeRow_foldl_none k _ m hm
    refine ⟨?_, ?_, ?_⟩
    · intro tr htr rows hrows r hrr hfb hat hc hkey
      have hcr : canonRow r ∈ (trs.map (partitionRows st ns conds rx)).flatten :=
        (hmemflat (canonRow r)).mpr
          ⟨tr, htr, rows, hrows, r, hrr, (hbridge tr htr rows hrows r hrr).mpr ⟨hfb, hat⟩,
            hc, rfl⟩
      exact hall (canonRow r) hcr hkey
    · obtain ⟨cr, hcr, hkey, he⟩ := hfrom
      obtain ⟨tr, htr, rows, hrows, r, hrr, ht, hc, rfl⟩ := (hmemflat cr).mp hcr
      have hov := (hbridge tr htr rows hrows r hrr).mp ht
      exact ⟨tr, htr, rows, hrows, r, hrr, hov.1, hov.2, hc, hkey, he⟩
    · obtain ⟨cr, hcr, hkey, he⟩ := hto
      obtain ⟨tr, htr, rows, hrows, r, hrr, ht, hc, rfl⟩ := (hmemflat cr).mp hcr
      have hov := (hbridge tr htr rows hrows r hrr).mp ht
      exact ⟨tr, htr, rows, hrows, r, hrr, hov.1, hov.2, hc, hkey, he⟩

/-- C1 (counterexample): a row with lifetime `[1738540800, 1738540900]`
stored in the table pair of the partition starting `1738540800`
(2025-02-03) overlaps the query range `[1734912000, 1742169590]` and
satisfies the lone Namespace matcher, yet `QueryMetrics` returns the empty
map with no error: the stepping of `getLifetimeRanges` never reaches that
partition, so the identity is silently missing.  Moreover a query with
`from = to` panics instead of returning a result. -/
theorem QueryMetrics_misses_overlapping_row :
    QueryMetrics [((1738540800, "ns"),
        [(⟨"ns", "n", "r", [], 1738540800, 1738540900⟩ : Metric)])]
      (fun _ _ => false) 1734912000 1742169590
      [(⟨MatchType.MatchEqual, "Namespace", "ns"⟩ : Matcher)] 0 []
      = some ([], none)
    ∧ buildLabelConditions [(⟨MatchType.MatchEqual, "Namespace", "ns"⟩ : Matcher)]
        = Except.ok ([(⟨Col.nspCol, MatchType.MatchEqual, "ns"⟩ : Cond)], "ns")
    ∧ lookupTable [((1738540800, "ns"),
        [(⟨"ns", "n", "r", [], 1738540800, 1738540900⟩ : Metric)])]
        (1738540800, nsTableKey "ns")
        = some [(⟨"ns", "n", "r", [], 1738540800, 1738540900⟩ : Metric)]
    ∧ ((1738540800 : Int) ≤ 1742169590 ∧ (1734912000 : Int) ≤ 1738540900)
    ∧ [(⟨Col.nspCol, MatchType.MatchEqual, "ns"⟩ : Cond)].all
        (condHolds (fun _ _ => false) (⟨"ns", "n", "r", [], 1738540800, 1738540900⟩ : Metric))
        = true
    ∧ QueryMetrics [((1738540800, "ns"),
        [(⟨"ns", "n", "r", [], 1738540800, 1738540900⟩ : Metric)])]
      (fun _ _ => false) 1735689600 1735689600
      [(⟨MatchType.MatchEqual, "Namespace", "ns"⟩ : Matcher)] 0 [] = none := by
  refine ⟨by decide, by decide, by decide, by decide, by decide, by decide⟩

/-- C1 (witness): the amended soundness theorem evaluated on a store with
one row in the single partition the query range covers, discharging the
compilation, range and wellformedness hypotheses on concrete values. -/
theorem QueryMetrics_sound_witness :
    buildLabelConditions [(⟨MatchType.MatchEqual, "Namespace", "ns"⟩ : Matcher)]
        = Except.ok ([(⟨Col.nspCol, MatchType.MatchEqual, "ns"⟩ : Cond)], "ns")
    ∧ ((1734912000 : Int) < 1734912200)
    ∧ storeWF [((1731283200, "ns"),
        [(⟨"ns", "n", "r", [], 1734912000, 1734912100⟩ : Metric)])]
    ∧ (∃ trs res,
        getLifetimeRanges 1734912000 1734912200 = some trs
        ∧ QueryMetrics [((1731283200, "ns"),
              [(⟨"ns", "n", "r", [], 1734912000, 1734912100⟩ : Metric)])]
            (fun _ _ => false) 1734912000 1734912200
            [(⟨MatchType.MatchEqual, "Namespace", "ns"⟩ : Matcher)] 0 []
            = some (res, none)
        ∧ (res.map Prod.fst).Nodup
        ∧ (∀ k : String,
            (lookupRM res k).isSome = true
              ↔ ∃ tr ∈ trs, ∃ rows,
                  lookupTable [((1731283200, "ns"),
                      [(⟨"ns", "n", "r", [], 1734912000, 1734912100⟩ : Metric)])]
                    (partitionStart tr.From, nsTableKey "ns") = some rows
                  ∧ ∃ r ∈ rows, r.FromTS ≤ 1734912200 ∧ 1734912000 ≤ r.ToTS
                      ∧ ([(⟨Col.nspCol, MatchType.MatchEqual, "ns"⟩ : Cond)]).all
                          (condHolds (fun _ _ => false) r) = true
                      ∧ UniqueKey (canonRow r) = k)
        ∧ (∀ (k : String) (m : Metric), lookupRM res k = some m →
            (∀ tr ∈ trs, ∀ rows,
                lookupTable [((1731283200, "ns"),
                    [(⟨"ns", "n", "r", [], 1734912000, 1734912100⟩ : Metric)])]
                  (partitionStart tr.From, nsTableKey "ns") = some rows →
                ∀ r ∈ rows, r.FromTS ≤ 1734912200 → 1734912000 ≤ r.ToTS →
                  ([(⟨Col.nspCol, MatchType.MatchEqual, "ns"⟩ : Cond)]).all
                      (condHolds (fun _ _ => false) r) = true →
                  UniqueKey (canonRow r) = k →
                  m.FromTS ≤ r.FromTS ∧ r.ToTS ≤ m.ToTS)
            ∧ (∃ tr ∈ trs, ∃ rows,
                lookupTable [((1731283200, "ns"),
                    [(⟨"ns", "n", "r", [], 1734912000, 1734912100⟩ : Metric)])]
                  (partitionStart tr.From, nsTableKey "ns") = some rows
                ∧ ∃ r ∈ rows, r.FromTS ≤ 1734912200 ∧ 1734912000 ≤ r.ToTS
                    ∧ ([(⟨Col.nspCol, MatchType.MatchEqual, "ns"⟩ : Cond)]).all
                        (condHolds (fun _ _ => false) r) = true
                    ∧ UniqueKey (canonRow r) = k ∧ m.FromTS = r.FromTS)
            ∧ (∃ tr ∈ trs, ∃ rows,
                lookupTable [((1731283200, "ns"),
                    [(⟨"ns", "n", "r", [], 1734912000, 1734912100⟩ : Metric)])]
                  (partitionStart tr.From, nsTableKey "ns") = some rows
                ∧ ∃ r ∈ rows, r.FromTS ≤ 1734912200 ∧ 1734912000 ≤ r.ToTS
                    ∧ ([(⟨Col.nspCol, MatchType.MatchEqual, "ns"⟩ : Cond)]).all
                        (condHolds (fun _ _ => false) r) = true
                    ∧ UniqueKey (canonRow r) = k ∧ m.ToTS = r.ToTS))) :=
  ⟨by decide, by decide, by unfold storeWF rowWF goodStr; decide,
    QueryMetrics_sound [((1731283200, "ns"),
        [(⟨"ns", "n", "r", [], 1734912000, 1734912100⟩ : Metric)])]
      (fun _ _ => false) 1734912000 1734912200
      [(⟨MatchType.MatchEqual, "Namespace", "ns"⟩ : Matcher)]
      [(⟨Col.nspCol, MatchType.MatchEqual, "ns"⟩ : Cond)] "ns"
      (by decide) (by decide) (by unfold storeWF rowWF goodStr; decide)⟩

end LabelsDB
